import Mathlib

/-!
Shallow embedding of `pytest_split/algorithms.py` and proofs about it.

Modelling conventions:
- Python floats are modelled as exact rationals (`Rat`); all duration
  arithmetic in the source is `+`, `/` and comparisons, which `Rat` mirrors.
- A pytest `nodes.Item` is opaque to this module except for its `nodeid`
  string, so it is modelled as a one-field structure.
- Python dicts of durations are modelled as association lists with unique
  keys; `dict.get`, `in` and dict comprehensions are modelled by first-match
  lookup, and dict insertion order (first occurrence wins) is modelled
  explicitly.
- Fallible Python operations (list indexing out of range, unpacking a split
  of the wrong arity, popping an empty heap, dividing by zero) are modelled
  with `Option`: `none` means the Python code raises.
-/

namespace PytestSplit

/-- A pytest item; the algorithms read only its `nodeid`. -/
structure Item where
  nodeid : String
deriving DecidableEq

/-- `InputTestGroup` from the source: an ordered list of items plus a duration. -/
structure InputTestGroup where
  tests : List Item
  duration : Rat
deriving DecidableEq

/-- `OutputTestGroup` from the source. -/
structure OutputTestGroup where
  selected : List Item
  deselected : List Item
  duration : Rat
deriving DecidableEq

/-- `_flatten`: `[item for group in test_groups for item in group.tests]`. -/
def flattenGroups (test_groups : List InputTestGroup) : List Item :=
  test_groups.flatMap InputTestGroup.tests

/-- Total duration of a list of groups (the value of `sum(g.duration for g in gs)`). -/
def totalDur (gs : List InputTestGroup) : Rat :=
  (gs.map InputTestGroup.duration).sum

/-- Python `xs[n].append(a)` on a list of lists, for `n < xs.length`
(every call site establishes that bound, matching the source where the
index always comes from `range(splits)` and the lists have length `splits`). -/
def appAt {α : Type} : Nat → List (List α) → α → List (List α)
  | _, [], _ => []
  | 0, l :: ls, a => (l ++ [a]) :: ls
  | n + 1, l :: ls, a => l :: appAt n ls a

/-- Python `for i in range(splits): if i != n: xs[i].append(a)` where
`xs` has length `splits`. -/
def appAllBut {α : Type} : Nat → List (List α) → α → List (List α)
  | _, [], _ => []
  | 0, l :: ls, a => l :: ls.map (fun t => t ++ [a])
  | n + 1, l :: ls, a => (l ++ [a]) :: appAllBut n ls a

/-- Association-list lookup by exact key match: Python `d[k]` / `d.get(k)` /
`k in d` on a dict with these key-value pairs. -/
def alookup {β : Type} (n : String) : List (String × β) → Option β
  | [] => none
  | p :: ps => if p.1 = n then some p.2 else alookup n ps

/-- First-occurrence deduplication, with an accumulator of already-seen keys:
the key order a Python dict built by repeated insertion ends up with. -/
def dedupFirstAux (seen : List String) : List String → List String
  | [] => []
  | x :: xs => if x ∈ seen then dedupFirstAux seen xs else x :: dedupFirstAux (x :: seen) xs

/-- First-occurrence deduplication of a list of keys. -/
def dedupFirst (l : List String) : List String :=
  dedupFirstAux [] l

/-- `_remove_irrelevant_durations`: the dict comprehension
`{name: durations[name] for name in test_ids if name in durations}`,
modelled as the association list whose keys are the relevant test ids in
first-occurrence order, each mapped to its recorded duration. -/
def _remove_irrelevant_durations (items : List Item) (durations : List (String × Rat)) :
    List (String × Rat) :=
  let test_ids := items.map Item.nodeid
  (dedupFirst (test_ids.filter (fun n => (alookup n durations).isSome))).filterMap
    (fun n => (alookup n durations).map (fun v => (n, v)))

/-- `_get_avg_duration_per_test`: `sum(d.values()) / len(d)` if the dict is
truthy (nonempty), else the arbitrary baseline `1`. -/
def _get_avg_duration_per_test (durations : List (String × Rat)) : Rat :=
  if durations.isEmpty then 1
  else (durations.map Prod.snd).sum / (durations.length : Rat)

/-- `_get_items_with_durations`: filter the record, compute the average, and
pair every item with `durations.get(item.nodeid, avg)`. -/
def _get_items_with_durations (items : List Item) (durations : List (String × Rat)) :
    List (Item × Rat) :=
  let durations2 := _remove_irrelevant_durations items durations
  let avg_duration_per_test := _get_avg_duration_per_test durations2
  items.map (fun item => (item, (alookup item.nodeid durations2).getD avg_duration_per_test))

/-- One step of the `defaultdict` accumulation in `group_tests`: append `item`
to `items_by_file[file]` and add `dur` to `durations_by_file[file]`, creating
the (joint) entry on first sight of `file`. -/
def fileUpsert (acc : List (String × (List Item × Rat))) (file : String) (item : Item)
    (dur : Rat) : List (String × (List Item × Rat)) :=
  if (alookup file acc).isSome then
    acc.map (fun e => if e.1 = file then (e.1, (e.2.1 ++ [item], e.2.2 + dur)) else e)
  else acc ++ [(file, ([item], dur))]

/-- The `else` branch of `group_tests`: group items by the file component of
`item.nodeid.split('::')`. The unpacking `file, _ = ...` raises (modelled by
`none`) unless the split yields exactly two parts. -/
def perFileGroups (items_with_durations : List (Item × Rat)) : Option (List InputTestGroup) :=
  (items_with_durations.foldlM
      (fun (acc : List (String × (List Item × Rat))) (p : Item × Rat) =>
        match p.1.nodeid.splitOn "::" with
        | [file, _] => some (fileUpsert acc file p.1 p.2)
        | _ => none)
      []).map
    (fun (acc : List (String × (List Item × Rat))) =>
      acc.map (fun (e : String × (List Item × Rat)) => InputTestGroup.mk e.2.1 e.2.2))

/-- `group_tests`: per-item groups when `group_type == "test"`, per-file
groups otherwise. -/
def group_tests (group_type : String) (items : List Item) (durations : List (String × Rat)) :
    Option (List InputTestGroup) :=
  let items_with_durations := _get_items_with_durations items durations
  if group_type = "test" then
    some (items_with_durations.map (fun p => InputTestGroup.mk [p.1] p.2))
  else perFileGroups items_with_durations

/-- Ordering of Python tuples `(summed_durations, group_index)` as compared
by `heapq`. -/
def lexLe (a b : Rat × Nat) : Prop :=
  a.1 < b.1 ∨ (a.1 = b.1 ∧ a.2 ≤ b.2)

instance : DecidableRel lexLe := fun a b =>
  inferInstanceAs (Decidable (a.1 < b.1 ∨ (a.1 = b.1 ∧ a.2 ≤ b.2)))

/-- Minimum of `x` and the elements of a list under `lexLe`. -/
def heapMin : Rat × Nat → List (Rat × Nat) → Rat × Nat
  | x, [] => x
  | x, y :: ys => heapMin (if lexLe x y then x else y) ys

/-- `heapq.heappop`: remove and return the least element under tuple
comparison; `none` on an empty heap (Python raises `IndexError`).  The heap
is modelled by its element list: all heap elements here carry distinct
bucket indices, so the least element is unique and the pop sequence depends
only on the element multiset, never on the internal heap layout; for the
same reason `heappush` is modelled as an append. -/
def heapPop : List (Rat × Nat) → Option ((Rat × Nat) × List (Rat × Nat))
  | [] => none
  | x :: xs => some (heapMin x xs, (x :: xs).erase (heapMin x xs))

/-- The comparison realised by `sorted(..., key=lambda p: p[1].duration,
reverse=True)`: descending by duration.  Python sorting is stable, as is
`List.insertionSort`. -/
def durGE (a b : Nat × InputTestGroup) : Prop :=
  b.2.duration ≤ a.2.duration

instance : DecidableRel durGE := fun a b =>
  inferInstanceAs (Decidable (b.2.duration ≤ a.2.duration))

instance : IsTotal (Nat × InputTestGroup) durGE :=
  ⟨fun a b => (le_total b.2.duration a.2.duration).imp id id⟩

instance : IsTrans (Nat × InputTestGroup) durGE :=
  ⟨fun _ _ _ h1 h2 => le_trans h2 h1⟩

/-- The comparison realised by `sorted(selected[i], key=lambda tup: tup[1])`:
ascending by original index. -/
def idxLE (a b : InputTestGroup × Nat) : Prop :=
  a.2 ≤ b.2

instance : DecidableRel idxLE := fun a b =>
  inferInstanceAs (Decidable (a.2 ≤ b.2))

instance : IsTotal (InputTestGroup × Nat) idxLE :=
  ⟨fun a b => (le_total a.2 b.2).imp id id⟩

instance : IsTrans (InputTestGroup × Nat) idxLE :=
  ⟨fun _ _ _ h1 h2 => le_trans h1 h2⟩

/-- Loop state of `least_duration`: the `selected`, `deselected`, `duration`
lists and the heap. -/
structure LDState where
  selected : List (List (InputTestGroup × Nat))
  deselected : List (List InputTestGroup)
  duration : List Rat
  heap : List (Rat × Nat)

/-- One iteration of the main loop of `least_duration`: pop the least-loaded
bucket, append the group (with its original index) to it, record the group as
deselected everywhere else, store the new bucket total, push the bucket back. -/
def ldStep (st : LDState) (p : Nat × InputTestGroup) : Option LDState :=
  match heapPop st.heap with
  | none => none
  | some (m, rest) =>
    let new_group_durations := m.1 + p.2.duration
    some ⟨appAt m.2 st.selected (p.2, p.1),
          appAllBut m.2 st.deselected p.2,
          st.duration.set m.2 new_group_durations,
          rest ++ [(new_group_durations, m.2)]⟩

/-- The result-building loop at the end of `least_duration`: for each bucket,
re-sort its assigned groups by original index, flatten, and pair with the
flattened deselected list and the bucket duration. -/
def ldProject (splits : Nat) (sel : List (List (InputTestGroup × Nat)))
    (desel : List (List InputTestGroup)) (dur : List Rat) : List OutputTestGroup :=
  (List.range splits).map (fun i =>
    OutputTestGroup.mk
      (flattenGroups ((List.insertionSort idxLE (sel.getD i [])).map Prod.fst))
      (flattenGroups (desel.getD i []))
      (dur.getD i 0))

/-- `least_duration` from the source, with `enumerate` modelled by
`List.enum` and the stable reverse sort by `List.insertionSort durGE`. -/
def least_duration (splits : Nat) (gs : List InputTestGroup) : Option (List OutputTestGroup) :=
  let sorted_groups := List.insertionSort durGE gs.enum
  let init : LDState :=
    ⟨List.replicate splits [], List.replicate splits [], List.replicate splits 0,
     (List.range splits).map (fun i => ((0 : Rat), i))⟩
  (sorted_groups.foldlM ldStep init).map (fun fin =>
    ldProject splits fin.selected fin.deselected fin.duration)

/-- Loop state of `duration_based_chunks`. -/
structure DBCState where
  selected : List (List InputTestGroup)
  deselected : List (List InputTestGroup)
  duration : List Rat
  group_idx : Nat

/-- One iteration of the loop of `duration_based_chunks`: read the current
bucket total (`duration[group_idx]`, an `IndexError` if out of range), advance
the pointer when the total already reached the target, then perform
`selected[group_idx].append(group)` - which raises `IndexError` (modelled by
`none`) when the advanced pointer equals `splits` - the deselected appends,
and the `duration[group_idx] += group.duration` update. -/
def dbcStep (splits : Nat) (time_per_group : Rat) (st : DBCState) (g : InputTestGroup) :
    Option DBCState :=
  match st.duration.get? st.group_idx with
  | none => none
  | some cur =>
    let gidx := if time_per_group ≤ cur then st.group_idx + 1 else st.group_idx
    if gidx < splits then
      some ⟨appAt gidx st.selected g,
            appAllBut gidx st.deselected g,
            st.duration.set gidx (st.duration.getD gidx 0 + g.duration),
            gidx⟩
    else none

/-- `duration_based_chunks` from the source.  `splits = 0` makes the very
first line `time_per_group = sum(...) / splits` raise `ZeroDivisionError`,
modelled by `none`. -/
def duration_based_chunks (splits : Nat) (gs : List InputTestGroup) :
    Option (List OutputTestGroup) :=
  if splits = 0 then none
  else
    let time_per_group : Rat := totalDur gs / (splits : Rat)
    let init : DBCState :=
      ⟨List.replicate splits [], List.replicate splits [], List.replicate splits 0, 0⟩
    (gs.foldlM (dbcStep splits time_per_group) init).map (fun fin =>
      (List.range splits).map (fun i =>
        OutputTestGroup.mk
          (flattenGroups (fin.selected.getD i []))
          (flattenGroups (fin.deselected.getD i []))
          (fin.duration.getD i 0)))

/-! Specification-side definitions, written from the words of the spec, used
only to be compared with the source models above. -/

/-- The explicit compound sort key demanded by the spec for `least_duration`:
duration descending, original index ascending. -/
def compoundLE (a b : Nat × InputTestGroup) : Prop :=
  b.2.duration < a.2.duration ∨ (a.2.duration = b.2.duration ∧ a.1 ≤ b.1)

instance : DecidableRel compoundLE := fun a b =>
  inferInstanceAs (Decidable (b.2.duration < a.2.duration ∨
    (a.2.duration = b.2.duration ∧ a.1 ≤ b.1)))

instance : IsTotal (Nat × InputTestGroup) compoundLE := by
  constructor
  intro a b
  rcases lt_trichotomy a.2.duration b.2.duration with h | h | h
  · exact Or.inr (Or.inl h)
  · rcases le_total a.1 b.1 with h2 | h2
    · exact Or.inl (Or.inr ⟨h, h2⟩)
    · exact Or.inr (Or.inr ⟨h.symm, h2⟩)
  · exact Or.inl (Or.inl h)

instance : IsTrans (Nat × InputTestGroup) compoundLE := by
  constructor
  rintro a b c (h1 | ⟨e1, i1⟩) (h2 | ⟨e2, i2⟩)
  · exact Or.inl (lt_trans h2 h1)
  · exact Or.inl (e2 ▸ h1)
  · exact Or.inl (e1 ▸ h2)
  · exact Or.inr ⟨e1.trans e2, le_trans i1 i2⟩

/-- Strict version of the compound key (ties on both components excluded);
on lists of pairs with pairwise-distinct indices it is the unique sorted
order. -/
def strictCompound (a b : Nat × InputTestGroup) : Prop :=
  b.2.duration < a.2.duration ∨ (a.2.duration = b.2.duration ∧ a.1 < b.1)

instance : IsAntisymm (Nat × InputTestGroup) strictCompound := by
  constructor
  rintro a b (h1 | ⟨e1, i1⟩) (h2 | ⟨e2, i2⟩)
  · exact absurd h1 (lt_asymm h2)
  · exact absurd h1 (e2 ▸ lt_irrefl _)
  · exact absurd h2 (e1 ▸ lt_irrefl _)
  · exact absurd i1 (Nat.lt_asymm i2)

/-- The spec ordering of `least_duration` processing: the input pairs sorted
explicitly by the compound key. -/
def specSortedGroups (gs : List InputTestGroup) : List (Nat × InputTestGroup) :=
  List.insertionSort compoundLE gs.enum

/-- The bucket the spec assigns the next group to, with its current total:
the pair `(cumulativeDuration, bucketIndex)` that is minimal primarily by
cumulative duration and secondarily by bucket index, over all `splits`
buckets. -/
def minBucket (dur : List Rat) (splits : Nat) : Rat × Nat :=
  match (List.range splits).map (fun i => (dur.getD i 0, i)) with
  | [] => ((0 : Rat), 0)
  | x :: xs => heapMin x xs

/-- Spec-side loop state for `least_duration` (no heap: the bucket is
recomputed from the duration table each step). -/
structure LDSpecState where
  selected : List (List (InputTestGroup × Nat))
  deselected : List (List InputTestGroup)
  duration : List Rat

/-- Spec-side greedy step: assign the group to the least-loaded bucket
(lowest index on ties). -/
def ldSpecStep (splits : Nat) (st : LDSpecState) (p : Nat × InputTestGroup) : LDSpecState :=
  let m := minBucket st.duration splits
  ⟨appAt m.2 st.selected (p.2, p.1),
   appAllBut m.2 st.deselected p.2,
   st.duration.set m.2 (m.1 + p.2.duration)⟩

/-- The state reached by the spec-side greedy loop after consuming the whole
compound-key-sorted input. -/
def ldSpecFin (splits : Nat) (gs : List InputTestGroup) : LDSpecState :=
  (specSortedGroups gs).foldl (ldSpecStep splits)
    ⟨List.replicate splits [], List.replicate splits [], List.replicate splits 0⟩

/-- Spec-side `least_duration`: explicit compound-key sort, greedy argmin
assignment, then the same order-restoring projection. -/
def ldSpec (splits : Nat) (gs : List InputTestGroup) : List OutputTestGroup :=
  ldProject splits (ldSpecFin splits gs).selected (ldSpecFin splits gs).deselected
    (ldSpecFin splits gs).duration

/-- Simulation relation between the heap-based loop state of `least_duration`
and the spec-side state: the visible lists agree, and the heap holds exactly
one entry per bucket carrying that bucket accumulated duration. -/
def LdRel (splits : Nat) (st : LDState) (sst : LDSpecState) : Prop :=
  st.selected = sst.selected ∧ st.deselected = sst.deselected ∧ st.duration = sst.duration ∧
  st.duration.length = splits ∧
  ((st.heap.map Prod.snd).Perm (List.range splits)) ∧
  (∀ q ∈ st.heap, q.1 = st.duration.getD q.2 0)

/-- Loop invariant of the spec-side greedy loop after the pairs in `done`
have been assigned: lengths are `splits`, the buckets jointly hold exactly
the processed pairs, each bucket plus its deselected list covers all
processed groups once, and the duration table tracks per-bucket and overall
totals. -/
def LdSpecInv (splits : Nat) (done : List (Nat × InputTestGroup)) (st : LDSpecState) : Prop :=
  st.selected.length = splits ∧ st.deselected.length = splits ∧ st.duration.length = splits ∧
  ((st.selected.flatten).Perm (done.map (fun p => (p.2, p.1)))) ∧
  (∀ i, i < splits →
    (((st.selected.getD i []).map Prod.fst ++ st.deselected.getD i []).Perm
      (done.map Prod.snd))) ∧
  (∀ i, i < splits → st.duration.getD i 0 = totalDur ((st.selected.getD i []).map Prod.fst)) ∧
  st.duration.sum = totalDur (done.map Prod.snd)

/-- Spec-side estimator (written from the words of the spec, for comparison
with `_get_items_with_durations`): filter the record to ids present in the
item list, average the remaining durations (1 when none remain), and give
each item its recorded duration or the average. -/
def estimatorSpec (items : List Item) (durations : List (String × Rat)) : List (Item × Rat) :=
  let relevant := durations.filter (fun p => decide (p.1 ∈ items.map Item.nodeid))
  let avg : Rat := if relevant = [] then 1 else (relevant.map Prod.snd).sum / (relevant.length : Rat)
  items.map (fun it => (it, (alookup it.nodeid relevant).getD avg))

/-- Loop invariant of `duration_based_chunks` after the groups in `done` have
been processed: list lengths are `splits`, the pointer is in range, the
buckets concatenate (in order) to exactly the processed prefix, buckets past
the pointer are untouched, each bucket together with its deselected list is a
permutation of the processed prefix, and the duration table tracks the
per-bucket and overall totals. -/
def DbcInv (splits : Nat) (done : List InputTestGroup) (st : DBCState) : Prop :=
  st.selected.length = splits ∧ st.deselected.length = splits ∧ st.duration.length = splits ∧
  st.group_idx < splits ∧
  st.selected.flatten = done ∧
  (∀ j, st.group_idx < j → st.selected.getD j [] = []) ∧
  (∀ i, i < splits → ((st.selected.getD i [] ++ st.deselected.getD i []).Perm done)) ∧
  (∀ i, i < splits → st.duration.getD i 0 = totalDur (st.selected.getD i [])) ∧
  st.duration.sum = totalDur done

/-! Helper lemmas about the small list operations used by the models. -/

theorem length_appAt {α : Type} : ∀ (n : Nat) (l : List (List α)) (a : α),
    (appAt n l a).length = l.length := by
  intro n l a
  induction l generalizing n with
  | nil => cases n <;> rfl
  | cons c ls ih =>
    cases n with
    | zero => rfl
    | succ n => simpa [appAt] using ih n

theorem getD_appAt_self {α : Type} (n : Nat) (l : List (List α)) (a : α) (h : n < l.length) :
    (appAt n l a).getD n [] = l.getD n [] ++ [a] := by
  induction l generalizing n with
  | nil => simp at h
  | cons c ls ih =>
    cases n with
    | zero => rfl
    | succ n =>
      simpa [appAt, List.getD_cons_succ] using ih n (Nat.succ_lt_succ_iff.mp (by simpa using h))

theorem getD_appAt_ne {α : Type} (n m : Nat) (l : List (List α)) (a : α) (h : m ≠ n) :
    (appAt n l a).getD m [] = l.getD m [] := by
  induction l generalizing n m with
  | nil => cases n <;> rfl
  | cons c ls ih =>
    cases n with
    | zero =>
      cases m with
      | zero => exact absurd rfl h
      | succ m => rfl
    | succ n =>
      cases m with
      | zero => rfl
      | succ m =>
        simpa [appAt, List.getD_cons_succ] using ih n m (fun e => h (by omega))

theorem length_appAllBut {α : Type} : ∀ (n : Nat) (l : List (List α)) (a : α),
    (appAllBut n l a).length = l.length := by
  intro n l a
  induction l generalizing n with
  | nil => cases n <;> rfl
  | cons c ls ih =>
    cases n with
    | zero => simp [appAllBut]
    | succ n => simpa [appAllBut] using ih n

theorem getD_appAllBut_self {α : Type} : ∀ (n : Nat) (l : List (List α)) (a : α),
    (appAllBut n l a).getD n [] = l.getD n [] := by
  intro n l a
  induction l generalizing n with
  | nil => cases n <;> rfl
  | cons c ls ih =>
    cases n with
    | zero => rfl
    | succ n => simpa [appAllBut, List.getD_cons_succ] using ih n

theorem getD_map_appendOne {α : Type} (m : Nat) (l : List (List α)) (a : α) (h : m < l.length) :
    (l.map (fun t => t ++ [a])).getD m [] = l.getD m [] ++ [a] := by
  induction l generalizing m with
  | nil => simp at h
  | cons c ls ih =>
    cases m with
    | zero => rfl
    | succ m =>
      simpa [List.getD_cons_succ] using ih m (Nat.succ_lt_succ_iff.mp (by simpa using h))

theorem getD_appAllBut_ne {α : Type} (n m : Nat) (l : List (List α)) (a : α) (h : m ≠ n)
    (hm : m < l.length) : (appAllBut n l a).getD m [] = l.getD m [] ++ [a] := by
  induction l generalizing n m with
  | nil => simp at hm
  | cons c ls ih =>
    cases n with
    | zero =>
      cases m with
      | zero => exact absurd rfl h
      | succ m =>
        simpa [appAllBut, List.getD_cons_succ] using
          getD_map_appendOne m ls a (Nat.succ_lt_succ_iff.mp (by simpa using hm))
    | succ n =>
      cases m with
      | zero => rfl
      | succ m =>
        simpa [appAllBut, List.getD_cons_succ] using
          ih n m (fun e => h (by omega)) (Nat.succ_lt_succ_iff.mp (by simpa using hm))

theorem rangeMapGetD {α : Type} (d : α) : ∀ (l : List α),
    (List.range l.length).map (fun i => l.getD i d) = l := by
  intro l
  induction l with
  | nil => rfl
  | cons c ls ih =>
    simp only [List.length_cons, List.range_succ_eq_map, List.map_cons, List.map_map]
    rw [show ((fun i => (c :: ls).getD i d) ∘ Nat.succ) = (fun i => ls.getD i d) from
      funext (fun i => List.getD_cons_succ)]
    exact congrArg (c :: ·) ih

theorem sum_set (l : List Rat) (n : Nat) (a : Rat) (h : n < l.length) :
    (l.set n a).sum = l.sum - l.getD n 0 + a := by
  induction l generalizing n with
  | nil => simp at h
  | cons c ls ih =>
    cases n with
    | zero => simp [List.sum_cons]; ring
    | succ n =>
      have := ih n (Nat.succ_lt_succ_iff.mp (by simpa using h))
      simp only [List.set_cons_succ, List.sum_cons, this, List.getD_cons_succ]
      ring

theorem getD_set_self (l : List Rat) (n : Nat) (a : Rat) (h : n < l.length) :
    (l.set n a).getD n 0 = a := by
  simp [List.getD_eq_getElem?_getD, List.getElem?_set_self h]

theorem getD_set_ne (l : List Rat) (n m : Nat) (a : Rat) (h : n ≠ m) :
    (l.set n a).getD m 0 = l.getD m 0 := by
  simp [List.getD_eq_getElem?_getD, List.getElem?_set_ne h]

theorem getD_replicate {α : Type} (x d : α) {n i : Nat} (h : i < n) :
    (List.replicate n x).getD i d = x := by
  simp [List.getD_eq_getElem?_getD, List.getElem?_replicate, h]

theorem flattenGroups_append (x y : List InputTestGroup) :
    flattenGroups (x ++ y) = flattenGroups x ++ flattenGroups y :=
  List.flatMap_append x y _

theorem flattenGroups_perm {gs1 gs2 : List InputTestGroup} (h : gs1.Perm gs2) :
    (flattenGroups gs1).Perm (flattenGroups gs2) :=
  List.Perm.flatMap_right _ h

theorem flattenGroups_sublist {l1 l2 : List InputTestGroup} (h : l1.Sublist l2) :
    (flattenGroups l1).Sublist (flattenGroups l2) := by
  induction h with
  | slnil => exact List.Sublist.refl _
  | cons a h ih =>
    exact ih.trans (by simp only [flattenGroups, List.flatMap_cons]; exact
      List.sublist_append_right (a.tests) _)
  | cons₂ a h ih =>
    simpa [flattenGroups, List.flatMap_cons] using List.Sublist.append (List.Sublist.refl a.tests) ih

theorem flatten_map_flattenGroups : ∀ (L : List (List InputTestGroup)),
    (L.map flattenGroups).flatten = flattenGroups L.flatten := by
  intro L
  induction L with
  | nil => rfl
  | cons c ls ih => simp [List.flatten_cons, flattenGroups_append, ih]

theorem flatten_perm_of_forall2 {α : Type} : ∀ {L1 L2 : List (List α)},
    List.Forall₂ (fun a b => List.Perm a b) L1 L2 → L1.flatten.Perm L2.flatten := by
  intro L1 L2 h
  induction h with
  | nil => exact List.Perm.refl _
  | cons h _ ih => simpa [List.flatten_cons] using List.Perm.append h ih

theorem totalDur_append (x y : List InputTestGroup) :
    totalDur (x ++ y) = totalDur x + totalDur y := by
  simp [totalDur]

theorem totalDur_perm {gs1 gs2 : List InputTestGroup} (h : gs1.Perm gs2) :
    totalDur gs1 = totalDur gs2 :=
  List.Perm.sum_eq (List.Perm.map _ h)

/-! Lemmas about the heap order and minimum extraction. -/

theorem lexLe_refl (a : Rat × Nat) : lexLe a a :=
  Or.inr ⟨rfl, le_refl _⟩

theorem lexLe_total (a b : Rat × Nat) : lexLe a b ∨ lexLe b a := by
  rcases lt_trichotomy a.1 b.1 with h | h | h
  · exact Or.inl (Or.inl h)
  · rcases le_total a.2 b.2 with h2 | h2
    · exact Or.inl (Or.inr ⟨h, h2⟩)
    · exact Or.inr (Or.inr ⟨h.symm, h2⟩)
  · exact Or.inr (Or.inl h)

theorem lexLe_trans {a b c : Rat × Nat} (h1 : lexLe a b) (h2 : lexLe b c) : lexLe a c := by
  rcases h1 with h1 | ⟨e1, i1⟩ <;> rcases h2 with h2 | ⟨e2, i2⟩
  · exact Or.inl (lt_trans h1 h2)
  · exact Or.inl (e2 ▸ h1)
  · exact Or.inl (e1 ▸ h2)
  · exact Or.inr ⟨e1.trans e2, le_trans i1 i2⟩

theorem lexLe_antisymm {a b : Rat × Nat} (h1 : lexLe a b) (h2 : lexLe b a) : a = b := by
  rcases h1 with h1 | ⟨e1, i1⟩ <;> rcases h2 with h2 | ⟨e2, i2⟩
  · exact absurd h1 (lt_asymm h2)
  · exact absurd h1 (e2 ▸ lt_irrefl _)
  · exact absurd h2 (e1 ▸ lt_irrefl _)
  · exact Prod.ext e1 (le_antisymm i1 i2)

theorem heapMin_mem : ∀ (x : Rat × Nat) (xs : List (Rat × Nat)), heapMin x xs ∈ x :: xs := by
  intro x xs
  induction xs generalizing x with
  | nil => simp [heapMin]
  | cons y ys ih =>
    show heapMin (if lexLe x y then x else y) ys ∈ x :: y :: ys
    rcases List.mem_cons.mp (ih (if lexLe x y then x else y)) with h1 | h1
    · rw [h1]; by_cases hc : lexLe x y <;> simp [hc]
    · exact List.mem_cons_of_mem _ (List.mem_cons_of_mem _ h1)

theorem heapMin_le : ∀ (x : Rat × Nat) (xs : List (Rat × Nat)), ∀ z ∈ x :: xs,
    lexLe (heapMin x xs) z := by
  intro x xs
  induction xs generalizing x with
  | nil =>
    intro z hz
    rcases List.mem_cons.mp hz with rfl | h
    · exact lexLe_refl z
    · simp at h
  | cons y ys ih =>
    intro z hz
    show lexLe (heapMin (if lexLe x y then x else y) ys) z
    have hm : lexLe (heapMin (if lexLe x y then x else y) ys) (if lexLe x y then x else y) :=
      ih _ _ (List.mem_cons_self _ _)
    rcases List.mem_cons.mp hz with rfl | hz2
    · by_cases hc : lexLe z y
      · simpa [hc] using hm
      · have hyz : lexLe y z := (lexLe_total y z).resolve_right hc
        exact lexLe_trans (by simpa [hc] using hm) hyz
    · rcases List.mem_cons.mp hz2 with rfl | hz3
      · by_cases hc : lexLe x z
        · exact lexLe_trans (by simpa [hc] using hm) hc
        · simpa [hc] using hm
      · exact ih _ z (List.mem_cons_of_mem _ hz3)

theorem heapMin_unique {x : Rat × Nat} {xs : List (Rat × Nat)} {z : Rat × Nat}
    (hz : z ∈ x :: xs) (hle : ∀ y ∈ x :: xs, lexLe z y) : z = heapMin x xs :=
  lexLe_antisymm (hle _ (heapMin_mem x xs)) (heapMin_le x xs z hz)

theorem heapMin_perm {x y : Rat × Nat} {xs ys : List (Rat × Nat)}
    (h : (x :: xs).Perm (y :: ys)) : heapMin x xs = heapMin y ys :=
  (heapMin_unique (h.mem_iff.mpr (heapMin_mem y ys))
    (fun w hw => heapMin_le y ys w (h.mem_iff.mp hw))).symm

theorem minBucket_eq_heapMin {d : List Rat} {splits : Nat} {y : Rat × Nat} {ys : List (Rat × Nat)}
    (hL : (List.range splits).map (fun i => (d.getD i 0, i)) = y :: ys) :
    minBucket d splits = heapMin y ys := by
  simp only [minBucket, hL]

theorem minBucket_mem (d : List Rat) (splits : Nat) (h : 1 ≤ splits) :
    minBucket d splits ∈ (List.range splits).map (fun i => (d.getD i 0, i)) := by
  rcases hL : (List.range splits).map (fun i => (d.getD i 0, i)) with _ | ⟨y, ys⟩
  · have := congrArg List.length hL
    simp at this
    omega
  · rw [minBucket_eq_heapMin hL]
    exact heapMin_mem y ys

theorem minBucket_le (d : List Rat) (splits : Nat) (h : 1 ≤ splits) :
    ∀ i < splits, lexLe (minBucket d splits) (d.getD i 0, i) := by
  intro i hi
  rcases hL : (List.range splits).map (fun i => (d.getD i 0, i)) with _ | ⟨y, ys⟩
  · have := congrArg List.length hL
    simp at this
    omega
  · rw [minBucket_eq_heapMin hL]
    refine heapMin_le y ys _ ?_
    rw [← hL]
    exact List.mem_map_of_mem _ (List.mem_range.mpr hi)

theorem minBucket_snd_lt (d : List Rat) (splits : Nat) (h : 1 ≤ splits) :
    (minBucket d splits).2 < splits := by
  rcases List.mem_map.mp (minBucket_mem d splits h) with ⟨i, hi, he⟩
  rw [← he]
  exact List.mem_range.mp hi

theorem minBucket_fst (d : List Rat) (splits : Nat) (h : 1 ≤ splits) :
    (minBucket d splits).1 = d.getD (minBucket d splits).2 0 := by
  rcases List.mem_map.mp (minBucket_mem d splits h) with ⟨i, _, he⟩
  rw [← he]

theorem heap_canonical {h : List (Rat × Nat)} {d : List Rat}
    (hent : ∀ q ∈ h, q.1 = d.getD q.2 0) :
    h = (h.map Prod.snd).map (fun i => (d.getD i 0, i)) := by
  rw [List.map_map]
  conv_lhs => rw [← List.map_id h]
  exact List.map_congr_left (fun q hq => by
    show q = (d.getD q.2 0, q.2)
    rw [← hent q hq])

theorem heapPop_canonical {h : List (Rat × Nat)} {d : List Rat} {splits : Nat}
    (h1 : 1 ≤ splits) (hperm : (h.map Prod.snd).Perm (List.range splits))
    (hent : ∀ q ∈ h, q.1 = d.getD q.2 0) :
    heapPop h = some (minBucket d splits, h.erase (minBucket d splits)) := by
  rcases h with _ | ⟨x, xs⟩
  · exfalso
    have := hperm.length_eq
    simp at this
    omega
  · have hp : (x :: xs).Perm ((List.range splits).map (fun i => (d.getD i 0, i))) := by
      conv_lhs => rw [heap_canonical hent]
      exact hperm.map _
    rcases hL : (List.range splits).map (fun i => (d.getD i 0, i)) with _ | ⟨y, ys⟩
    · have := congrArg List.length hL
      simp at this
      omega
    · have hmin : heapMin x xs = minBucket d splits := by
        rw [minBucket_eq_heapMin hL]
        exact heapMin_perm (hL ▸ hp)
      show some (heapMin x xs, (x :: xs).erase (heapMin x xs)) = _
      rw [hmin]

/-! Flattening behaviour of `appAt`. -/

theorem flatten_appAt_last {α : Type} (n : Nat) (l : List (List α)) (a : α)
    (hn : n < l.length) (hempty : ∀ j, n < j → l.getD j [] = []) :
    (appAt n l a).flatten = l.flatten ++ [a] := by
  induction l generalizing n with
  | nil => simp at hn
  | cons c ls ih =>
    cases n with
    | zero =>
      have hnil : ls.flatten = [] := by
        rw [List.flatten_eq_nil_iff]
        intro x hx
        rcases List.mem_iff_getElem.mp hx with ⟨k, hk, he⟩
        have := hempty (k + 1) (Nat.succ_pos k)
        rw [List.getD_cons_succ, List.getD_eq_getElem _ _ hk] at this
        rw [← he]
        exact this
      show ((c ++ [a]) :: ls).flatten = (c :: ls).flatten ++ [a]
      simp [List.flatten_cons, hnil]
    | succ n =>
      have hn2 : n < ls.length := Nat.succ_lt_succ_iff.mp (by simpa using hn)
      have hemp2 : ∀ j, n < j → ls.getD j [] = [] := by
        intro j hj
        have := hempty (j + 1) (Nat.succ_lt_succ hj)
        rwa [List.getD_cons_succ] at this
      show (c :: appAt n ls a).flatten = (c :: ls).flatten ++ [a]
      simp [List.flatten_cons, ih n hn2 hemp2]

theorem flatten_appAt_perm {α : Type} (n : Nat) (l : List (List α)) (a : α)
    (hn : n < l.length) : ((appAt n l a).flatten).Perm (l.flatten ++ [a]) := by
  induction l generalizing n with
  | nil => simp at hn
  | cons c ls ih =>
    cases n with
    | zero =>
      show ((c ++ [a]) :: ls).flatten.Perm ((c :: ls).flatten ++ [a])
      simp only [List.flatten_cons, List.append_assoc]
      exact List.Perm.append_left c (by
        simpa using @List.perm_append_comm _ [a] ls.flatten)
    | succ n =>
      show (c :: appAt n ls a).flatten.Perm ((c :: ls).flatten ++ [a])
      simp only [List.flatten_cons, List.append_assoc]
      exact List.Perm.append_left c (ih n (Nat.succ_lt_succ_iff.mp (by simpa using hn)))

/-! The loop invariant of `duration_based_chunks` is preserved. -/

theorem dbcStep_elim {splits : Nat} {t : Rat} {st st2 : DBCState} {g : InputTestGroup}
    (h : dbcStep splits t st g = some st2) :
    ∃ cur, st.duration.get? st.group_idx = some cur ∧
      (if t ≤ cur then st.group_idx + 1 else st.group_idx) < splits ∧
      st2 = ⟨appAt (if t ≤ cur then st.group_idx + 1 else st.group_idx) st.selected g,
             appAllBut (if t ≤ cur then st.group_idx + 1 else st.group_idx) st.deselected g,
             st.duration.set (if t ≤ cur then st.group_idx + 1 else st.group_idx)
               (st.duration.getD (if t ≤ cur then st.group_idx + 1 else st.group_idx) 0
                 + g.duration),
             if t ≤ cur then st.group_idx + 1 else st.group_idx⟩ := by
  unfold dbcStep at h
  rcases hc : st.duration.get? st.group_idx with _ | cur
  · rw [hc] at h
    exact absurd h (by simp)
  · rw [hc] at h
    dsimp only at h
    by_cases hlt : (if t ≤ cur then st.group_idx + 1 else st.group_idx) < splits
    · rw [if_pos hlt] at h
      exact ⟨cur, rfl, hlt, (Option.some_inj.mp h).symm⟩
    · rw [if_neg hlt] at h
      exact absurd h (by simp)

theorem dbcInv_step {splits : Nat} {t : Rat} {done : List InputTestGroup} {st st2 : DBCState}
    {g : InputTestGroup} (hinv : DbcInv splits done st) (h : dbcStep splits t st g = some st2) :
    DbcInv splits (done ++ [g]) st2 := by
  obtain ⟨hls, hld, hlr, hgi, hflat, hemp, hcomp, hdur, hsum⟩ := hinv
  obtain ⟨cur, hcur, hlt, hst2⟩ := dbcStep_elim h
  set gidx := if t ≤ cur then st.group_idx + 1 else st.group_idx with hgidx
  have hgadv : gidx = st.group_idx ∨ gidx = st.group_idx + 1 := by
    rw [hgidx]
    by_cases hc : t ≤ cur <;> simp [hc]
  have hgige : st.group_idx ≤ gidx := by rcases hgadv with h2 | h2 <;> omega
  have hempg : ∀ j, gidx < j → st.selected.getD j [] = [] := fun j hj => hemp j (by omega)
  have hsellen : gidx < st.selected.length := by rw [hls]; exact hlt
  have hrlen : gidx < st.duration.length := by rw [hlr]; exact hlt
  subst hst2
  unfold DbcInv
  dsimp only
  refine ⟨?_, ?_, ?_, hlt, ?_, ?_, ?_, ?_, ?_⟩
  · rw [length_appAt, hls]
  · rw [length_appAllBut, hld]
  · rw [List.length_set, hlr]
  · rw [flatten_appAt_last gidx st.selected g hsellen hempg, hflat]
  · intro j hj
    rw [getD_appAt_ne _ _ _ _ (by omega)]
    exact hempg j hj
  · intro i hi
    by_cases hieq : i = gidx
    · rw [hieq, getD_appAt_self _ _ _ hsellen, getD_appAllBut_self, List.append_assoc]
      refine List.Perm.trans (List.Perm.append_left _ List.perm_append_comm) ?_
      rw [← List.append_assoc]
      exact List.Perm.append_right _ (hcomp gidx hlt)
    · rw [getD_appAt_ne _ _ _ _ hieq,
        getD_appAllBut_ne _ _ _ _ hieq (by rw [hld]; exact hi),
        ← List.append_assoc]
      exact List.Perm.append_right _ (hcomp i hi)
  · intro i hi
    by_cases hieq : i = gidx
    · rw [hieq, getD_set_self _ _ _ hrlen, getD_appAt_self _ _ _ hsellen, totalDur_append,
        hdur gidx hlt]
      simp only [totalDur, List.map_cons, List.map_nil, List.sum_cons, List.sum_nil, add_zero]
    · rw [getD_set_ne _ _ _ _ (fun e => hieq e.symm), getD_appAt_ne _ _ _ _ hieq]
      exact hdur i hi
  · rw [sum_set _ _ _ hrlen, hsum, totalDur_append, hdur gidx hlt]
    simp only [totalDur, List.map_cons, List.map_nil, List.sum_cons, List.sum_nil, add_zero]
    ring

theorem dbcInv_init (splits : Nat) (h : 1 ≤ splits) :
    DbcInv splits []
      ⟨List.replicate splits [], List.replicate splits [], List.replicate splits 0, 0⟩ := by
  have hget : ∀ (j : Nat), (List.replicate splits ([] : List InputTestGroup)).getD j [] = [] := by
    intro j
    by_cases hj : j < splits
    · exact getD_replicate _ _ hj
    · exact List.getD_eq_default _ _ (by simpa [Nat.not_lt] using hj)
  refine ⟨by simp, by simp, by simp, h, ?_, fun j _ => hget j, ?_, ?_, ?_⟩
  · simp [List.flatten_eq_nil_iff]
  · intro i hi
    rw [hget i]
    exact List.Perm.refl _
  · intro i hi
    rw [hget i, getD_replicate _ _ hi]
    simp [totalDur]
  · simp [totalDur, List.sum_replicate]

theorem dbcInv_fold {splits : Nat} {t : Rat} :
    ∀ (gs : List InputTestGroup) (st : DBCState) (done : List InputTestGroup) (fin : DBCState),
      DbcInv splits done st → gs.foldlM (dbcStep splits t) st = some fin →
      DbcInv splits (done ++ gs) fin := by
  intro gs
  induction gs with
  | nil =>
    intro st done fin hinv h
    simp only [List.foldlM_nil] at h
    have h2 : st = fin := Option.some_inj.mp h
    rw [List.append_nil]
    exact h2 ▸ hinv
  | cons g gs ih =>
    intro st done fin hinv h
    rw [List.foldlM_cons] at h
    rcases hstep : dbcStep splits t st g with _ | st2
    · rw [hstep] at h
      exact absurd h (by simp)
    · rw [hstep] at h
      have h2 : gs.foldlM (dbcStep splits t) st2 = some fin := h
      have := ih st2 (done ++ [g]) fin (dbcInv_step hinv hstep) h2
      rwa [List.append_assoc, List.singleton_append] at this

theorem dbc_some_elim {splits : Nat} {gs : List InputTestGroup} {out : List OutputTestGroup}
    (h : duration_based_chunks splits gs = some out) :
    1 ≤ splits ∧ ∃ fin : DBCState, DbcInv splits gs fin ∧
      out = (List.range splits).map (fun i =>
        OutputTestGroup.mk (flattenGroups (fin.selected.getD i []))
          (flattenGroups (fin.deselected.getD i [])) (fin.duration.getD i 0)) := by
  unfold duration_based_chunks at h
  by_cases hz : splits = 0
  · rw [if_pos hz] at h
    exact absurd h (by simp)
  · rw [if_neg hz] at h
    have hs : 1 ≤ splits := Nat.one_le_iff_ne_zero.mpr hz
    rcases Option.map_eq_some'.mp h with ⟨fin, hfold, hout⟩
    exact ⟨hs, fin, by simpa using dbcInv_fold gs _ [] fin (dbcInv_init splits hs) hfold,
      hout.symm⟩

/-! Observable properties of `duration_based_chunks`, derived from the
invariant. -/

theorem range_map_getD_comp {α β : Type} (l : List α) (d : α) (f : α → β) {n : Nat}
    (hn : l.length = n) : (List.range n).map (fun i => f (l.getD i d)) = l.map f := by
  subst hn
  rw [show (fun i => f (l.getD i d)) = f ∘ (fun i => l.getD i d) from rfl, ← List.map_map,
    rangeMapGetD]

theorem flattenGroups_contiguous {l L : List InputTestGroup} (h : l <:+: L) :
    (flattenGroups l) <:+: (flattenGroups L) := by
  obtain ⟨s, t, rfl⟩ := h
  exact ⟨flattenGroups s, flattenGroups t, by simp [flattenGroups_append]⟩

theorem dbc_length {splits : Nat} {gs : List InputTestGroup} {out : List OutputTestGroup}
    (h : duration_based_chunks splits gs = some out) : out.length = splits := by
  obtain ⟨_, fin, _, hout⟩ := dbc_some_elim h
  rw [hout, List.length_map, List.length_range]

theorem dbc_selected_flatten {splits : Nat} {gs : List InputTestGroup}
    {out : List OutputTestGroup} (h : duration_based_chunks splits gs = some out) :
    (out.map OutputTestGroup.selected).flatten = flattenGroups gs := by
  obtain ⟨_, fin, hinv, hout⟩ := dbc_some_elim h
  obtain ⟨hls, _, _, _, hflat, _, _, _, _⟩ := hinv
  rw [hout, List.map_map]
  rw [show (OutputTestGroup.selected ∘ fun i =>
      OutputTestGroup.mk (flattenGroups (fin.selected.getD i []))
        (flattenGroups (fin.deselected.getD i [])) (fin.duration.getD i 0)) =
      (fun i => flattenGroups (fin.selected.getD i [])) from rfl]
  rw [range_map_getD_comp fin.selected [] flattenGroups hls, flatten_map_flattenGroups, hflat]

theorem dbc_mem_elim {splits : Nat} {gs : List InputTestGroup} {out : List OutputTestGroup}
    (h : duration_based_chunks splits gs = some out) {o : OutputTestGroup} (ho : o ∈ out) :
    ∃ fin : DBCState, DbcInv splits gs fin ∧ ∃ i, i < splits ∧
      o = OutputTestGroup.mk (flattenGroups (fin.selected.getD i []))
        (flattenGroups (fin.deselected.getD i [])) (fin.duration.getD i 0) := by
  obtain ⟨_, fin, hinv, hout⟩ := dbc_some_elim h
  rw [hout] at ho
  rcases List.mem_map.mp ho with ⟨i, hir, he⟩
  exact ⟨fin, hinv, i, List.mem_range.mp hir, he.symm⟩

theorem dbc_selected_contiguous {splits : Nat} {gs : List InputTestGroup} {out : List OutputTestGroup}
    (h : duration_based_chunks splits gs = some out) {o : OutputTestGroup} (ho : o ∈ out) :
    o.selected <:+: flattenGroups gs := by
  obtain ⟨fin, hinv, i, hi, he⟩ := dbc_mem_elim h ho
  obtain ⟨hls, _, _, _, hflat, _, _, _, _⟩ := hinv
  have hmem : fin.selected.getD i [] ∈ fin.selected := by
    rw [List.getD_eq_getElem _ _ (by rw [hls]; exact hi)]
    exact List.getElem_mem _
  have := flattenGroups_contiguous (List.infix_of_mem_flatten hmem)
  rw [hflat] at this
  rw [he]
  exact this

theorem dbc_complement {splits : Nat} {gs : List InputTestGroup} {out : List OutputTestGroup}
    (h : duration_based_chunks splits gs = some out) {o : OutputTestGroup} (ho : o ∈ out) :
    (o.selected ++ o.deselected).Perm (flattenGroups gs) := by
  obtain ⟨fin, hinv, i, hi, he⟩ := dbc_mem_elim h ho
  obtain ⟨_, _, _, _, _, _, hcomp, _, _⟩ := hinv
  rw [he]
  show (flattenGroups (fin.selected.getD i []) ++ flattenGroups (fin.deselected.getD i [])).Perm _
  rw [← flattenGroups_append]
  exact flattenGroups_perm (hcomp i hi)

theorem dbc_duration_sum {splits : Nat} {gs : List InputTestGroup} {out : List OutputTestGroup}
    (h : duration_based_chunks splits gs = some out) :
    (out.map OutputTestGroup.duration).sum = totalDur gs := by
  obtain ⟨_, fin, hinv, hout⟩ := dbc_some_elim h
  obtain ⟨_, _, hlr, _, _, _, _, _, hsum⟩ := hinv
  rw [hout, List.map_map]
  rw [show (OutputTestGroup.duration ∘ fun i =>
      OutputTestGroup.mk (flattenGroups (fin.selected.getD i []))
        (flattenGroups (fin.deselected.getD i [])) (fin.duration.getD i 0)) =
      (fun i => fin.duration.getD i 0) from rfl]
  rw [show (fun i => fin.duration.getD i 0) = (fun i => id (fin.duration.getD i 0)) from rfl]
  rw [range_map_getD_comp fin.duration 0 id hlr, List.map_id]
  exact hsum

theorem dbc_bucket_duration {splits : Nat} {gs : List InputTestGroup} {out : List OutputTestGroup}
    (h : duration_based_chunks splits gs = some out) {o : OutputTestGroup} (ho : o ∈ out) :
    ∃ assigned : List InputTestGroup,
      o.selected = flattenGroups assigned ∧ o.duration = totalDur assigned := by
  obtain ⟨fin, hinv, i, hi, he⟩ := dbc_mem_elim h ho
  obtain ⟨_, _, _, _, _, _, _, hdur, _⟩ := hinv
  exact ⟨fin.selected.getD i [], by rw [he], by rw [he]; exact hdur i hi⟩

/-! The stable duration-only sort of the source equals the explicit
compound-key sort of the spec. -/

theorem orderedInsert_pairwise_strict (a : Nat × InputTestGroup) :
    ∀ (s : List (Nat × InputTestGroup)), List.Pairwise strictCompound s →
    List.Sorted durGE s → (∀ q ∈ s, a.1 < q.1) →
    List.Pairwise strictCompound (List.orderedInsert durGE a s) := by
  intro s
  induction s with
  | nil =>
    intro _ _ _
    exact List.pairwise_singleton _ _
  | cons b s ih =>
    intro hp hs hidx
    by_cases hab : durGE a b
    · rw [List.orderedInsert, if_pos hab]
      refine List.Pairwise.cons ?_ hp
      intro x hx
      have hxa : x.2.duration ≤ a.2.duration := by
        rcases List.mem_cons.mp hx with rfl | hxs
        · exact hab
        · exact le_trans (List.rel_of_sorted_cons hs x hxs) hab
      rcases lt_or_eq_of_le hxa with hlt | heq
      · exact Or.inl hlt
      · exact Or.inr ⟨heq.symm, hidx x hx⟩
    · rw [List.orderedInsert, if_neg hab]
      have hba : a.2.duration < b.2.duration := not_le.mp hab
      refine List.Pairwise.cons ?_
        (ih hp.of_cons hs.of_cons (fun q hq => hidx q (List.mem_cons_of_mem _ hq)))
      intro x hx
      rcases (List.mem_orderedInsert durGE).mp hx with rfl | hxs
      · exact Or.inl hba
      · exact List.rel_of_pairwise_cons hp hxs

theorem pairwise_fst_lt_enum (gs : List InputTestGroup) :
    List.Pairwise (fun p q => p.1 < q.1) gs.enum := by
  have h1 : List.Pairwise (fun a b => a < b) (gs.enum.map Prod.fst) := by
    rw [List.enum_map_fst]
    exact List.pairwise_lt_range _
  exact List.pairwise_map.mp h1

theorem insertionSort_durGE_pairwise_strict :
    ∀ (l : List (Nat × InputTestGroup)), List.Pairwise (fun p q => p.1 < q.1) l →
    List.Pairwise strictCompound (List.insertionSort durGE l) := by
  intro l
  induction l with
  | nil =>
    intro _
    simp
  | cons a l ih =>
    intro hl
    show List.Pairwise strictCompound (List.orderedInsert durGE a (List.insertionSort durGE l))
    refine orderedInsert_pairwise_strict a _ (ih hl.of_cons)
      (List.sorted_insertionSort durGE l) ?_
    intro q hq
    exact List.rel_of_pairwise_cons hl ((List.perm_insertionSort durGE l).subset hq)

theorem pairwise_strict_of_compound {l : List (Nat × InputTestGroup)}
    (h1 : List.Pairwise compoundLE l) (h2 : List.Pairwise (fun p q => p.1 ≠ q.1) l) :
    List.Pairwise strictCompound l := by
  refine (h1.and h2).imp ?_
  rintro a b ⟨hc | ⟨he, hle⟩, hne⟩
  · exact Or.inl hc
  · exact Or.inr ⟨he, lt_of_le_of_ne hle hne⟩

theorem nodup_fst_of_perm_enum {l : List (Nat × InputTestGroup)} {gs : List InputTestGroup}
    (h : l.Perm gs.enum) : (l.map Prod.fst).Nodup := by
  have hp : (l.map Prod.fst).Perm (List.range gs.length) := by
    rw [← List.enum_map_fst]
    exact h.map _
  exact (hp.nodup_iff).mpr (List.nodup_range _)

theorem sortedGroups_eq_spec (gs : List InputTestGroup) :
    List.insertionSort durGE gs.enum = specSortedGroups gs := by
  refine @List.eq_of_perm_of_sorted _ strictCompound inferInstance _ _ ?_ ?_ ?_
  · exact (List.perm_insertionSort durGE _).trans (List.perm_insertionSort compoundLE _).symm
  · exact insertionSort_durGE_pairwise_strict _ (pairwise_fst_lt_enum gs)
  · refine pairwise_strict_of_compound (List.sorted_insertionSort compoundLE _) ?_
    have hnd := nodup_fst_of_perm_enum (List.perm_insertionSort compoundLE gs.enum)
    exact List.pairwise_map.mp hnd

/-! The heap-based loop of `least_duration` refines the spec-side greedy
loop. -/

theorem ldRel_init (splits : Nat) :
    LdRel splits
      ⟨List.replicate splits [], List.replicate splits [], List.replicate splits 0,
        (List.range splits).map (fun i => ((0 : Rat), i))⟩
      ⟨List.replicate splits [], List.replicate splits [], List.replicate splits 0⟩ := by
  refine ⟨rfl, rfl, rfl, by simp, ?_, ?_⟩
  · rw [List.map_map]
    rw [show (Prod.snd ∘ fun i => ((0 : Rat), i)) = (id : Nat → Nat) from rfl, List.map_id]
  · intro q hq
    rcases List.mem_map.mp hq with ⟨i, hi, he⟩
    rw [← he]
    show (0 : Rat) = (List.replicate splits (0 : Rat)).getD i 0
    rw [getD_replicate _ _ (List.mem_range.mp hi)]

theorem erase_bridge (l : List (Rat × Nat)) (a : Rat × Nat) :
    l.erase a = @List.erase (Rat × Nat) instBEqOfDecidableEq l a := by
  induction l with
  | nil => rfl
  | cons x xs ih => by_cases hx : x = a <;> simp [List.erase_cons, hx, ih, instBEqOfDecidableEq]

theorem ldStep_refine {splits : Nat} {st : LDState} {sst : LDSpecState}
    (h1 : 1 ≤ splits) (hrel : LdRel splits st sst) (p : Nat × InputTestGroup) :
    ∃ st2, ldStep st p = some st2 ∧ LdRel splits st2 (ldSpecStep splits sst p) := by
  obtain ⟨hsel, hdes, hdur, hlen, hperm, hent⟩ := hrel
  have hpop := @heapPop_canonical st.heap st.duration splits h1 hperm hent
  have hmlt : (minBucket st.duration splits).2 < splits := minBucket_snd_lt _ _ h1
  have hmem : minBucket st.duration splits ∈ st.heap := by
    have hcan := heap_canonical hent
    have : st.heap.Perm ((List.range splits).map (fun i => (st.duration.getD i 0, i))) := by
      conv_lhs => rw [hcan]
      exact hperm.map _
    exact this.mem_iff.mpr (minBucket_mem _ _ h1)
  have hsndnodup : (st.heap.map Prod.snd).Nodup :=
    (hperm.nodup_iff).mpr (List.nodup_range _)
  have hcons : st.heap.Perm (minBucket st.duration splits :: st.heap.erase
      (minBucket st.duration splits)) := by
    rw [erase_bridge]
    exact List.perm_cons_erase hmem
  have hstep : ldStep st p = some
      ⟨appAt (minBucket st.duration splits).2 st.selected (p.2, p.1),
       appAllBut (minBucket st.duration splits).2 st.deselected p.2,
       st.duration.set (minBucket st.duration splits).2
         ((minBucket st.duration splits).1 + p.2.duration),
       st.heap.erase (minBucket st.duration splits) ++
         [((minBucket st.duration splits).1 + p.2.duration,
           (minBucket st.duration splits).2)]⟩ := by
    unfold ldStep
    rw [hpop]
  refine ⟨_, hstep, ?_⟩
  have hmspec : minBucket sst.duration splits = minBucket st.duration splits := by rw [hdur]
  have hm2notin : (minBucket st.duration splits).2 ∉
      (st.heap.erase (minBucket st.duration splits)).map Prod.snd := by
    intro hin
    have hp2 : (st.heap.map Prod.snd).Perm
        ((minBucket st.duration splits).2 ::
          (st.heap.erase (minBucket st.duration splits)).map Prod.snd) := hcons.map _
    have := (hp2.nodup_iff).mp hsndnodup
    exact (List.nodup_cons.mp this).1 hin
  unfold ldSpecStep
  rw [hmspec]
  dsimp only
  refine ⟨by rw [hsel], by rw [hdes], by rw [hdur], by rw [List.length_set, hlen], ?_, ?_⟩
  · rw [List.map_append]
    refine List.Perm.trans (List.perm_append_singleton _ _) ?_
    refine List.Perm.trans (hcons.map Prod.snd).symm hperm
  · intro q hq
    rcases List.mem_append.mp hq with hq1 | hq2
    · have hqheap : q ∈ st.heap := (List.erase_sublist _ _).subset hq1
      have hqne : q.2 ≠ (minBucket st.duration splits).2 := by
        intro he
        exact hm2notin (he ▸ List.mem_map_of_mem Prod.snd hq1)
      rw [getD_set_ne _ _ _ _ (fun e => hqne e.symm)]
      exact hent q hqheap
    · have hq3 : q = ((minBucket st.duration splits).1 + p.2.duration,
          (minBucket st.duration splits).2) := by simpa using hq2
      rw [hq3]
      show (minBucket st.duration splits).1 + p.2.duration = _
      rw [getD_set_self _ _ _ (by rw [hlen]; exact hmlt)]

theorem ldFold_refine {splits : Nat} (h1 : 1 ≤ splits) :
    ∀ (l : List (Nat × InputTestGroup)) (st : LDState) (sst : LDSpecState),
      LdRel splits st sst →
      ∃ fin, l.foldlM ldStep st = some fin ∧
        LdRel splits fin (l.foldl (ldSpecStep splits) sst) := by
  intro l
  induction l with
  | nil =>
    intro st sst hrel
    exact ⟨st, by simp [List.foldlM_nil], hrel⟩
  | cons p l ih =>
    intro st sst hrel
    obtain ⟨st2, hstep, hrel2⟩ := ldStep_refine h1 hrel p
    obtain ⟨fin, hfold, hrelf⟩ := ih st2 (ldSpecStep splits sst p) hrel2
    refine ⟨fin, ?_, hrelf⟩
    rw [List.foldlM_cons, hstep]
    exact hfold

theorem least_duration_eq_ldSpec {splits : Nat} (gs : List InputTestGroup) (h1 : 1 ≤ splits) :
    least_duration splits gs = some (ldSpec splits gs) := by
  obtain ⟨fin, hfold, hrel⟩ := ldFold_refine h1 (specSortedGroups gs) _ _ (ldRel_init splits)
  obtain ⟨hsel, hdes, hdur, _⟩ := hrel
  simp only [least_duration]
  rw [sortedGroups_eq_spec, hfold, Option.map_some']
  unfold ldSpec ldSpecFin
  rw [hsel, hdes, hdur]

/-! The spec-side greedy loop maintains its coverage and duration
invariant. -/

theorem ldSpecInv_step {splits : Nat} {done : List (Nat × InputTestGroup)} {st : LDSpecState}
    (h1 : 1 ≤ splits) (hinv : LdSpecInv splits done st) (p : Nat × InputTestGroup) :
    LdSpecInv splits (done ++ [p]) (ldSpecStep splits st p) := by
  obtain ⟨hls, hld, hlr, hflat, hcomp, hdur, hsum⟩ := hinv
  have hmlt : (minBucket st.duration splits).2 < splits := minBucket_snd_lt _ _ h1
  have hmfst : (minBucket st.duration splits).1 =
      st.duration.getD (minBucket st.duration splits).2 0 := minBucket_fst _ _ h1
  set m := minBucket st.duration splits with hm
  have hsellen : m.2 < st.selected.length := by rw [hls]; exact hmlt
  have hrlen : m.2 < st.duration.length := by rw [hlr]; exact hmlt
  unfold ldSpecStep
  rw [← hm]
  dsimp only
  refine ⟨?_, ?_, ?_, ?_, ?_, ?_, ?_⟩
  · rw [length_appAt, hls]
  · rw [length_appAllBut, hld]
  · rw [List.length_set, hlr]
  · refine List.Perm.trans (flatten_appAt_perm _ _ _ hsellen) ?_
    rw [List.map_append]
    exact List.Perm.append_right _ hflat
  · intro i hi
    by_cases hieq : i = m.2
    · rw [hieq, getD_appAt_self _ _ _ hsellen, getD_appAllBut_self, List.map_append,
        List.append_assoc]
      refine List.Perm.trans (List.Perm.append_left _ List.perm_append_comm) ?_
      rw [← List.append_assoc, List.map_append]
      exact List.Perm.append_right _ (hcomp m.2 hmlt)
    · rw [getD_appAt_ne _ _ _ _ hieq,
        getD_appAllBut_ne _ _ _ _ hieq (by rw [hld]; exact hi),
        ← List.append_assoc, List.map_append]
      exact List.Perm.append_right _ (hcomp i hi)
  · intro i hi
    by_cases hieq : i = m.2
    · rw [hieq, getD_set_self _ _ _ hrlen, getD_appAt_self _ _ _ hsellen, List.map_append,
        totalDur_append, hmfst, hdur m.2 hmlt]
      simp only [totalDur, List.map_cons, List.map_nil, List.sum_cons, List.sum_nil, add_zero]
    · rw [getD_set_ne _ _ _ _ (fun e => hieq e.symm), getD_appAt_ne _ _ _ _ hieq]
      exact hdur i hi
  · rw [sum_set _ _ _ hrlen, hsum, List.map_append, totalDur_append, hmfst, hdur m.2 hmlt]
    simp only [totalDur, List.map_cons, List.map_nil, List.sum_cons, List.sum_nil, add_zero]
    ring

theorem ldSpecInv_init (splits : Nat) :
    LdSpecInv splits []
      ⟨List.replicate splits [], List.replicate splits [], List.replicate splits 0⟩ := by
  have hget : ∀ (j : Nat),
      (List.replicate splits ([] : List (InputTestGroup × Nat))).getD j [] = [] := by
    intro j
    by_cases hj : j < splits
    · exact getD_replicate _ _ hj
    · exact List.getD_eq_default _ _ (by simpa [Nat.not_lt] using hj)
  have hgetd : ∀ (j : Nat),
      (List.replicate splits ([] : List InputTestGroup)).getD j [] = [] := by
    intro j
    by_cases hj : j < splits
    · exact getD_replicate _ _ hj
    · exact List.getD_eq_default _ _ (by simpa [Nat.not_lt] using hj)
  refine ⟨by simp, by simp, by simp, ?_, ?_, ?_, ?_⟩
  · simp [List.flatten_eq_nil_iff]
  · intro i hi
    rw [hget i, hgetd i]
    simp
  · intro i hi
    rw [hget i, getD_replicate _ _ hi]
    simp [totalDur]
  · simp [totalDur, List.sum_replicate]

theorem ldSpecInv_fold {splits : Nat} (h1 : 1 ≤ splits) :
    ∀ (l : List (Nat × InputTestGroup)) (st : LDSpecState) (done : List (Nat × InputTestGroup)),
      LdSpecInv splits done st →
      LdSpecInv splits (done ++ l) (l.foldl (ldSpecStep splits) st) := by
  intro l
  induction l with
  | nil =>
    intro st done hinv
    rw [List.append_nil]
    exact hinv
  | cons p l ih =>
    intro st done hinv
    have := ih (ldSpecStep splits st p) (done ++ [p]) (ldSpecInv_step h1 hinv p)
    rwa [List.append_assoc, List.singleton_append] at this

theorem ldSpecFin_inv {splits : Nat} (gs : List InputTestGroup) (h1 : 1 ≤ splits) :
    LdSpecInv splits (specSortedGroups gs) (ldSpecFin splits gs) := by
  have := ldSpecInv_fold h1 (specSortedGroups gs) _ [] (ldSpecInv_init splits)
  simpa using this

theorem specSortedGroups_perm (gs : List InputTestGroup) :
    (specSortedGroups gs).Perm gs.enum :=
  List.perm_insertionSort compoundLE gs.enum

theorem specSortedGroups_snd_perm (gs : List InputTestGroup) :
    ((specSortedGroups gs).map Prod.snd).Perm gs := by
  have := (specSortedGroups_perm gs).map Prod.snd
  rwa [List.enum_map_snd] at this

/-! Observable properties of `least_duration`, derived from the refinement
and the spec-side invariant. -/

theorem forall2_perm_map {α β : Type} (l : List α) (f g : α → List β)
    (h : ∀ a ∈ l, (f a).Perm (g a)) :
    List.Forall₂ (fun x y => x.Perm y) (l.map f) (l.map g) := by
  induction l with
  | nil => exact List.Forall₂.nil
  | cons a l ih =>
    exact List.Forall₂.cons (h a (List.mem_cons_self a l))
      (ih (fun b hb => h b (List.mem_cons_of_mem a hb)))

theorem pairwise_snd_lt {l : List (InputTestGroup × Nat)} (h1 : List.Pairwise idxLE l)
    (h2 : (l.map Prod.snd).Nodup) : List.Pairwise (fun a b => a.2 < b.2) l := by
  refine (h1.and (List.pairwise_map.mp h2)).imp ?_
  rintro a b ⟨hle, hne⟩
  exact lt_of_le_of_ne hle hne

theorem ldSpec_length (splits : Nat) (gs : List InputTestGroup) :
    (ldSpec splits gs).length = splits := by
  unfold ldSpec ldProject
  rw [List.length_map, List.length_range]

theorem ldSpec_mem_elim {splits : Nat} {gs : List InputTestGroup} {o : OutputTestGroup}
    (ho : o ∈ ldSpec splits gs) :
    ∃ i, i < splits ∧
      o = OutputTestGroup.mk
        (flattenGroups ((List.insertionSort idxLE
          ((ldSpecFin splits gs).selected.getD i [])).map Prod.fst))
        (flattenGroups ((ldSpecFin splits gs).deselected.getD i []))
        ((ldSpecFin splits gs).duration.getD i 0) := by
  unfold ldSpec ldProject at ho
  rcases List.mem_map.mp ho with ⟨i, hir, he⟩
  exact ⟨i, List.mem_range.mp hir, he.symm⟩

theorem ldSpec_selected_flatten_perm {splits : Nat} (gs : List InputTestGroup)
    (h1 : 1 ≤ splits) :
    (((ldSpec splits gs).map OutputTestGroup.selected).flatten).Perm (flattenGroups gs) := by
  obtain ⟨hls, _, _, hflat, _, _, _⟩ := ldSpecFin_inv gs h1
  unfold ldSpec ldProject
  rw [List.map_map]
  rw [show (OutputTestGroup.selected ∘ fun i =>
      OutputTestGroup.mk
        (flattenGroups ((List.insertionSort idxLE
          ((ldSpecFin splits gs).selected.getD i [])).map Prod.fst))
        (flattenGroups ((ldSpecFin splits gs).deselected.getD i []))
        ((ldSpecFin splits gs).duration.getD i 0)) =
      (fun i => flattenGroups ((List.insertionSort idxLE
        ((ldSpecFin splits gs).selected.getD i [])).map Prod.fst)) from rfl]
  refine List.Perm.trans (flatten_perm_of_forall2 (forall2_perm_map (List.range splits) _
    (fun i => flattenGroups (((ldSpecFin splits gs).selected.getD i []).map Prod.fst))
    (fun i _ => flattenGroups_perm ((List.perm_insertionSort idxLE _).map Prod.fst)))) ?_
  rw [range_map_getD_comp (ldSpecFin splits gs).selected []
    (fun b => flattenGroups (b.map Prod.fst)) hls]
  rw [show ((ldSpecFin splits gs).selected.map (fun b => flattenGroups (b.map Prod.fst))) =
    (((ldSpecFin splits gs).selected.map (List.map Prod.fst)).map flattenGroups) from by
    rw [List.map_map]
    rfl]
  rw [flatten_map_flattenGroups, ← List.map_flatten]
  refine List.Perm.trans (flattenGroups_perm (hflat.map Prod.fst)) ?_
  rw [List.map_map]
  rw [show ((Prod.fst ∘ fun p : Nat × InputTestGroup => (p.2, p.1))) =
    (Prod.snd : Nat × InputTestGroup → InputTestGroup) from rfl]
  exact flattenGroups_perm (specSortedGroups_snd_perm gs)

theorem ldSpec_complement {splits : Nat} {gs : List InputTestGroup} (h1 : 1 ≤ splits)
    {o : OutputTestGroup} (ho : o ∈ ldSpec splits gs) :
    (o.selected ++ o.deselected).Perm (flattenGroups gs) := by
  obtain ⟨i, hi, he⟩ := ldSpec_mem_elim ho
  obtain ⟨_, _, _, _, hcomp, _, _⟩ := ldSpecFin_inv gs h1
  rw [he]
  show (flattenGroups _ ++ flattenGroups _).Perm _
  rw [← flattenGroups_append]
  refine List.Perm.trans (flattenGroups_perm
    (List.Perm.append_right _ ((List.perm_insertionSort idxLE _).map Prod.fst))) ?_
  refine List.Perm.trans (flattenGroups_perm (hcomp i hi)) ?_
  exact flattenGroups_perm (specSortedGroups_snd_perm gs)

theorem ldSpec_duration_sum {splits : Nat} (gs : List InputTestGroup) (h1 : 1 ≤ splits) :
    ((ldSpec splits gs).map OutputTestGroup.duration).sum = totalDur gs := by
  obtain ⟨_, _, hlr, _, _, _, hsum⟩ := ldSpecFin_inv gs h1
  unfold ldSpec ldProject
  rw [List.map_map]
  rw [show (OutputTestGroup.duration ∘ fun i =>
      OutputTestGroup.mk
        (flattenGroups ((List.insertionSort idxLE
          ((ldSpecFin splits gs).selected.getD i [])).map Prod.fst))
        (flattenGroups ((ldSpecFin splits gs).deselected.getD i []))
        ((ldSpecFin splits gs).duration.getD i 0)) =
      (fun i => id ((ldSpecFin splits gs).duration.getD i 0)) from rfl]
  rw [range_map_getD_comp (ldSpecFin splits gs).duration 0 id hlr, List.map_id, hsum]
  exact totalDur_perm (specSortedGroups_snd_perm gs)

theorem ldSpec_bucket_duration {splits : Nat} {gs : List InputTestGroup} (h1 : 1 ≤ splits)
    {o : OutputTestGroup} (ho : o ∈ ldSpec splits gs) :
    ∃ assigned : List InputTestGroup,
      o.selected = flattenGroups assigned ∧ o.duration = totalDur assigned := by
  obtain ⟨i, hi, he⟩ := ldSpec_mem_elim ho
  obtain ⟨_, _, _, _, _, hdur, _⟩ := ldSpecFin_inv gs h1
  refine ⟨(List.insertionSort idxLE ((ldSpecFin splits gs).selected.getD i [])).map Prod.fst,
    by rw [he], ?_⟩
  rw [he]
  show (ldSpecFin splits gs).duration.getD i 0 = _
  rw [hdur i hi]
  exact totalDur_perm ((List.perm_insertionSort idxLE _).map Prod.fst).symm

theorem ldSpec_order {splits : Nat} {gs : List InputTestGroup} (h1 : 1 ≤ splits)
    {o : OutputTestGroup} (ho : o ∈ ldSpec splits gs) :
    o.selected.Sublist (flattenGroups gs) := by
  obtain ⟨i, hi, he⟩ := ldSpec_mem_elim ho
  obtain ⟨hls, _, _, hflat, _, _, _⟩ := ldSpecFin_inv gs h1
  set bucket := (ldSpecFin splits gs).selected.getD i [] with hbucket
  have hbmem : bucket ∈ (ldSpecFin splits gs).selected := by
    rw [hbucket, List.getD_eq_getElem _ _ (by rw [hls]; exact hi)]
    exact List.getElem_mem _
  have hbsub : bucket.Sublist (ldSpecFin splits gs).selected.flatten :=
    (List.infix_of_mem_flatten hbmem).sublist
  have hsndnodup : ((ldSpecFin splits gs).selected.flatten.map Prod.snd).Nodup := by
    have hp : ((ldSpecFin splits gs).selected.flatten.map Prod.snd).Perm
        (List.range gs.length) := by
      refine List.Perm.trans (hflat.map Prod.snd) ?_
      rw [List.map_map]
      rw [show (Prod.snd ∘ fun p : Nat × InputTestGroup => (p.2, p.1)) =
        (Prod.fst : Nat × InputTestGroup → Nat) from rfl]
      rw [← List.enum_map_fst]
      exact (specSortedGroups_perm gs).map _
    exact (hp.nodup_iff).mpr (List.nodup_range _)
  have hbnodup : (bucket.map Prod.snd).Nodup :=
    List.Nodup.sublist (hbsub.map Prod.snd) hsndnodup
  have hbenum : ∀ q ∈ bucket, (q.2, q.1) ∈ gs.enum := by
    intro q hq
    have hq2 : q ∈ (ldSpecFin splits gs).selected.flatten := hbsub.subset hq
    have hq3 := hflat.subset hq2
    rcases List.mem_map.mp hq3 with ⟨r, hr, he2⟩
    have : (q.2, q.1) = r := by rw [← he2]
    rw [this]
    exact (specSortedGroups_perm gs).subset hr
  set sortIdx := List.insertionSort idxLE bucket with hsi
  have hsiperm : sortIdx.Perm bucket := List.perm_insertionSort idxLE bucket
  have hsinodup : (sortIdx.map Prod.snd).Nodup :=
    ((hsiperm.map Prod.snd).nodup_iff).mpr hbnodup
  have hsistrict : List.Pairwise (fun a b => a.2 < b.2) sortIdx :=
    pairwise_snd_lt (List.sorted_insertionSort idxLE bucket) hsinodup
  set mapped := sortIdx.map (fun q : InputTestGroup × Nat => (q.2, q.1)) with hmapped
  have hmstrict : List.Pairwise (fun p q : Nat × InputTestGroup => p.1 < q.1) mapped :=
    List.pairwise_map.mpr hsistrict
  have hmsub : mapped ⊆ gs.enum := by
    intro x hx
    rcases List.mem_map.mp hx with ⟨q, hq, he2⟩
    rw [← he2]
    exact hbenum q (hsiperm.subset hq)
  have hmnodup : mapped.Nodup := by
    refine hmstrict.imp ?_
    intro a b hab he
    rw [he] at hab
    exact lt_irrefl _ hab
  have hsublist : mapped.Sublist gs.enum :=
    @List.sublist_of_subperm_of_sorted (Nat × InputTestGroup)
      (fun p q => p.1 < q.1)
      ⟨fun a b hab hba => absurd hab (lt_asymm hba)⟩ _ _
      (hmnodup.subperm hmsub) hmstrict (pairwise_fst_lt_enum gs)
  have hsnd : (mapped.map Prod.snd).Sublist gs := by
    have := hsublist.map Prod.snd
    rwa [List.enum_map_snd] at this
  have hfst : mapped.map Prod.snd = sortIdx.map Prod.fst := by
    rw [hmapped, List.map_map]
    rfl
  rw [he]
  show (flattenGroups (sortIdx.map Prod.fst)).Sublist _
  rw [← hfst]
  exact flattenGroups_sublist hsnd

/-! Lemmas about association-list lookup and first-occurrence
deduplication. -/

theorem alookup_mem {β : Type} {n : String} {v : β} : ∀ {l : List (String × β)},
    alookup n l = some v → (n, v) ∈ l := by
  intro l
  induction l with
  | nil => intro h; exact absurd h (by simp [alookup])
  | cons p ps ih =>
    intro h
    rw [alookup] at h
    by_cases hp : p.1 = n
    · rw [if_pos hp] at h
      have : v = p.2 := (Option.some_inj.mp h).symm
      rw [this, ← hp]
      exact List.mem_cons_self _ _
    · rw [if_neg hp] at h
      exact List.mem_cons_of_mem _ (ih h)

theorem mem_alookup {β : Type} {n : String} {v : β} : ∀ {l : List (String × β)},
    (l.map Prod.fst).Nodup → (n, v) ∈ l → alookup n l = some v := by
  intro l
  induction l with
  | nil => intro _ h; simp at h
  | cons p ps ih =>
    intro hnd h
    rcases List.mem_cons.mp h with he | hm
    · rw [alookup, if_pos (by rw [← he])]
      rw [← he]
    · have hp : p.1 ≠ n := by
        intro he2
        have : p.1 ∈ ps.map Prod.fst := by
          rw [he2]
          exact List.mem_map_of_mem Prod.fst hm
        exact (List.nodup_cons.mp (by simpa using hnd)).1 this
      rw [alookup, if_neg hp]
      exact ih (List.nodup_cons.mp (by simpa using hnd)).2 hm

theorem alookup_isSome_iff {β : Type} (n : String) : ∀ (l : List (String × β)),
    (alookup n l).isSome = true ↔ n ∈ l.map Prod.fst := by
  intro l
  induction l with
  | nil => simp [alookup]
  | cons p ps ih =>
    by_cases hp : p.1 = n
    · simp [alookup, hp]
    · simp only [alookup, if_neg hp, List.map_cons, List.mem_cons]
      rw [ih]
      constructor
      · exact Or.inr
      · rintro (he | hm)
        · exact absurd he.symm hp
        · exact hm

theorem alookup_eq_none_iff {β : Type} (n : String) (l : List (String × β)) :
    alookup n l = none ↔ n ∉ l.map Prod.fst := by
  rw [← alookup_isSome_iff]
  cases alookup n l <;> simp

theorem mem_dedupFirstAux {x : String} : ∀ (l seen : List String),
    x ∈ dedupFirstAux seen l ↔ x ∈ l ∧ x ∉ seen := by
  intro l
  induction l with
  | nil => intro seen; simp [dedupFirstAux]
  | cons y ys ih =>
    intro seen
    by_cases hy : y ∈ seen
    · rw [dedupFirstAux, if_pos hy, ih]
      constructor
      · rintro ⟨h1, h2⟩
        exact ⟨List.mem_cons_of_mem _ h1, h2⟩
      · rintro ⟨h1, h2⟩
        rcases List.mem_cons.mp h1 with rfl | h3
        · exact absurd hy h2
        · exact ⟨h3, h2⟩
    · rw [dedupFirstAux, if_neg hy]
      constructor
      · intro h
        rcases List.mem_cons.mp h with rfl | h2
        · exact ⟨List.mem_cons_self _ _, hy⟩
        · rcases (ih (y :: seen)).mp h2 with ⟨h3, h4⟩
          exact ⟨List.mem_cons_of_mem _ h3,
            fun hs => h4 (List.mem_cons_of_mem _ hs)⟩
      · rintro ⟨h1, h2⟩
        rcases List.mem_cons.mp h1 with rfl | h3
        · exact List.mem_cons_self _ _
        · by_cases hxy : x = y
          · rw [hxy]; exact List.mem_cons_self _ _
          · exact List.mem_cons_of_mem _ ((ih (y :: seen)).mpr
              ⟨h3, fun hs => (List.mem_cons.mp hs).elim hxy h2⟩)

theorem nodup_dedupFirstAux : ∀ (l seen : List String), (dedupFirstAux seen l).Nodup := by
  intro l
  induction l with
  | nil => intro seen; simp [dedupFirstAux]
  | cons y ys ih =>
    intro seen
    by_cases hy : y ∈ seen
    · rw [dedupFirstAux, if_pos hy]
      exact ih seen
    · rw [dedupFirstAux, if_neg hy]
      refine List.nodup_cons.mpr ⟨?_, ih (y :: seen)⟩
      intro hmem
      exact ((mem_dedupFirstAux ys (y :: seen)).mp hmem).2 (List.mem_cons_self _ _)

theorem mem_dedupFirst {x : String} {l : List String} : x ∈ dedupFirst l ↔ x ∈ l := by
  rw [dedupFirst, mem_dedupFirstAux]
  simp

theorem nodup_dedupFirst (l : List String) : (dedupFirst l).Nodup :=
  nodup_dedupFirstAux l []

/-! The duration estimator agrees with its specification. -/

theorem mem_remove_irrelevant {items : List Item} {durations : List (String × Rat)}
    {p : String × Rat} :
    p ∈ _remove_irrelevant_durations items durations ↔
      (p.1 ∈ items.map Item.nodeid ∧ alookup p.1 durations = some p.2) := by
  show p ∈ (dedupFirst ((items.map Item.nodeid).filter
      (fun n => (alookup n durations).isSome))).filterMap
      (fun n => (alookup n durations).map (fun v => (n, v))) ↔ _
  rw [List.mem_filterMap]
  constructor
  · rintro ⟨n, hn, he⟩
    rcases Option.map_eq_some'.mp he with ⟨v, hv, hpe⟩
    have hn2 := List.mem_filter.mp (mem_dedupFirst.mp hn)
    rw [← hpe]
    exact ⟨hn2.1, hv⟩
  · rintro ⟨h1, h2⟩
    refine ⟨p.1, ?_, ?_⟩
    · rw [mem_dedupFirst]
      refine List.mem_filter.mpr ⟨h1, ?_⟩
      rw [h2]
      rfl
    · rw [h2]
      rfl

theorem remove_irrelevant_perm (items : List Item) (durations : List (String × Rat))
    (hnd : (durations.map Prod.fst).Nodup) :
    (_remove_irrelevant_durations items durations).Perm
      (durations.filter (fun p => decide (p.1 ∈ items.map Item.nodeid))) := by
  have hmemR : ∀ p : String × Rat,
      p ∈ durations.filter (fun p => decide (p.1 ∈ items.map Item.nodeid)) ↔
      (p ∈ durations ∧ p.1 ∈ items.map Item.nodeid) := by
    intro p
    rw [List.mem_filter]
    simp only [decide_eq_true_eq]
  have hMsub : _remove_irrelevant_durations items durations ⊆
      durations.filter (fun p => decide (p.1 ∈ items.map Item.nodeid)) := by
    intro p hp
    rcases mem_remove_irrelevant.mp hp with ⟨h1, h2⟩
    refine (hmemR p).mpr ⟨?_, h1⟩
    have := alookup_mem h2
    simpa using this
  have hRsub : durations.filter (fun p => decide (p.1 ∈ items.map Item.nodeid)) ⊆
      _remove_irrelevant_durations items durations := by
    intro p hp
    rcases (hmemR p).mp hp with ⟨h1, h2⟩
    refine mem_remove_irrelevant.mpr ⟨h2, ?_⟩
    exact mem_alookup hnd (by simpa using h1)
  have hMnodup : (_remove_irrelevant_durations items durations).Nodup := by
    refine List.Nodup.filterMap ?_ (nodup_dedupFirst _)
    intro a a2 b hb hb2
    rcases Option.map_eq_some'.mp hb with ⟨v, _, hbe⟩
    rcases Option.map_eq_some'.mp hb2 with ⟨v2, _, hbe2⟩
    rw [← hbe2] at hbe
    exact (Prod.mk.injEq _ _ _ _).mp hbe |>.1
  have hRnodup : (durations.filter (fun p => decide (p.1 ∈ items.map Item.nodeid))).Nodup :=
    List.Nodup.sublist (List.filter_sublist _) (hnd.of_map _)
  exact List.Subperm.antisymm (hMnodup.subperm hMsub) (hRnodup.subperm hRsub)

theorem map_fst_filterMap_alookup_sublist (durations : List (String × Rat)) :
    ∀ (L : List String),
      ((L.filterMap (fun n => (alookup n durations).map (fun v => (n, v)))).map
        Prod.fst).Sublist L := by
  intro L
  induction L with
  | nil => simp
  | cons n L ih =>
    rw [List.filterMap_cons]
    rcases h : alookup n durations with _ | v
    · exact ih.trans (List.sublist_cons_self n L)
    · rw [Option.map_some']
      exact List.Sublist.cons₂ n ih

theorem remove_irrelevant_keys_nodup (items : List Item) (durations : List (String × Rat)) :
    ((_remove_irrelevant_durations items durations).map Prod.fst).Nodup := by
  refine List.Nodup.sublist ?_ (nodup_dedupFirst
    ((items.map Item.nodeid).filter (fun n => (alookup n durations).isSome)))
  exact map_fst_filterMap_alookup_sublist durations _

theorem estimator_spec_eq (items : List Item) (durations : List (String × Rat))
    (hnd : (durations.map Prod.fst).Nodup) :
    _get_items_with_durations items durations = estimatorSpec items durations := by
  have hperm := remove_irrelevant_perm items durations hnd
  have hMkeys := remove_irrelevant_keys_nodup items durations
  have hlookup : ∀ n, alookup n (_remove_irrelevant_durations items durations) =
      alookup n (durations.filter (fun p => decide (p.1 ∈ items.map Item.nodeid))) := by
    intro n
    rcases hR : alookup n (durations.filter
        (fun p => decide (p.1 ∈ items.map Item.nodeid))) with _ | v
    · rw [alookup_eq_none_iff] at hR ⊢
      intro hmem
      exact hR ((hperm.map Prod.fst).mem_iff.mp hmem)
    · exact mem_alookup hMkeys (hperm.mem_iff.mpr (alookup_mem hR))
  have havg : _get_avg_duration_per_test (_remove_irrelevant_durations items durations) =
      (if durations.filter (fun p => decide (p.1 ∈ items.map Item.nodeid)) = [] then (1 : Rat)
       else ((durations.filter (fun p => decide (p.1 ∈ items.map Item.nodeid))).map
          Prod.snd).sum /
        (((durations.filter (fun p => decide (p.1 ∈ items.map Item.nodeid))).length :
          Nat) : Rat)) := by
    unfold _get_avg_duration_per_test
    by_cases hRe : durations.filter (fun p => decide (p.1 ∈ items.map Item.nodeid)) = []
    · have hMe : _remove_irrelevant_durations items durations = [] := by
        have := hperm.length_eq
        rw [hRe] at this
        exact List.length_eq_zero.mp (by simpa using this)
      rw [if_pos hRe, if_pos (by rw [hMe]; rfl)]
    · have hMe : _remove_irrelevant_durations items durations ≠ [] := by
        intro he
        have := hperm.length_eq
        rw [he] at this
        exact hRe (List.length_eq_zero.mp (by simpa using this.symm))
      rw [if_neg hRe, if_neg (fun h => hMe (List.isEmpty_iff.mp h))]
      rw [List.Perm.sum_eq (hperm.map Prod.snd), hperm.length_eq]
  unfold _get_items_with_durations estimatorSpec
  refine List.map_congr_left ?_
  intro item _
  rw [hlookup, havg]

/-! Per-file grouping: the loop fails exactly when some id does not split
into exactly two parts. -/

theorem items_with_durations_fst (items : List Item) (durations : List (String × Rat)) :
    (_get_items_with_durations items durations).map Prod.fst = items := by
  simp only [_get_items_with_durations, List.map_map]
  conv_rhs => rw [← List.map_id items]
  exact List.map_congr_left (fun a _ => rfl)

theorem fold_upsert_none_iff : ∀ (l : List (Item × Rat))
    (acc : List (String × (List Item × Rat))),
    (l.foldlM (fun (acc : List (String × (List Item × Rat))) (p : Item × Rat) =>
      match p.1.nodeid.splitOn "::" with
      | [file, _] => some (fileUpsert acc file p.1 p.2)
      | _ => none) acc) = none ↔ ∃ p ∈ l, (p.1.nodeid.splitOn "::").length ≠ 2 := by
  intro l
  induction l with
  | nil =>
    intro acc
    simp [List.foldlM_nil]
  | cons p l ih =>
    intro acc
    rw [List.foldlM_cons]
    rcases hsp : p.1.nodeid.splitOn "::" with _ | ⟨a, _ | ⟨b, _ | ⟨c, t⟩⟩⟩
    · refine iff_of_true rfl ⟨p, List.mem_cons_self _ _, ?_⟩
      rw [hsp]
      simp
    · refine iff_of_true rfl ⟨p, List.mem_cons_self _ _, ?_⟩
      rw [hsp]
      simp
    · constructor
      · intro h
        rcases (ih (fileUpsert acc a p.1 p.2)).mp h with ⟨q, hq, hlen⟩
        exact ⟨q, List.mem_cons_of_mem _ hq, hlen⟩
      · rintro ⟨q, hq, hlen⟩
        rcases List.mem_cons.mp hq with rfl | hq2
        · exact absurd (by rw [hsp]; rfl) hlen
        · exact (ih (fileUpsert acc a p.1 p.2)).mpr ⟨q, hq2, hlen⟩
    · refine iff_of_true rfl ⟨p, List.mem_cons_self _ _, ?_⟩
      rw [hsp]
      simp

theorem perFileGroups_none_iff (iwd : List (Item × Rat)) :
    perFileGroups iwd = none ↔ ∃ p ∈ iwd, (p.1.nodeid.splitOn "::").length ≠ 2 := by
  unfold perFileGroups
  rw [Option.map_eq_none']
  exact fold_upsert_none_iff iwd []

theorem group_tests_none_iff {gt : String} (hgt : gt ≠ "test") (items : List Item)
    (durations : List (String × Rat)) :
    group_tests gt items durations = none ↔
      ∃ it ∈ items, (it.nodeid.splitOn "::").length ≠ 2 := by
  simp only [group_tests]
  rw [if_neg hgt, perFileGroups_none_iff]
  constructor
  · rintro ⟨p, hp, hlen⟩
    refine ⟨p.1, ?_, hlen⟩
    have hm : p.1 ∈ (_get_items_with_durations items durations).map Prod.fst :=
      List.mem_map_of_mem _ hp
    rwa [items_with_durations_fst] at hm
  · rintro ⟨it, hit, hlen⟩
    have hm : it ∈ (_get_items_with_durations items durations).map Prod.fst := by
      rw [items_with_durations_fst]
      exact hit
    rcases List.mem_map.mp hm with ⟨p, hp, he⟩
    refine ⟨p, hp, ?_⟩
    rw [he]
    exact hlen

theorem group_tests_mode {gt : String} (hgt : gt ≠ "test") (items : List Item)
    (durations : List (String × Rat)) :
    group_tests gt items durations = group_tests "file" items durations := by
  simp only [group_tests]
  rw [if_neg hgt, if_neg (by decide : ¬(("file" : String) = "test"))]

/-! Behaviour at split count zero. -/

theorem least_duration_zero_cons (g : InputTestGroup) (gs : List InputTestGroup) :
    least_duration 0 (g :: gs) = none := by
  simp only [least_duration, List.range_zero, List.map_nil]
  rcases hs : List.insertionSort durGE (g :: gs).enum with _ | ⟨p, l⟩
  · exfalso
    have hlen := (List.perm_insertionSort durGE (g :: gs).enum).length_eq
    rw [hs] at hlen
    simp at hlen
  · rfl

theorem duration_based_chunks_zero (gs : List InputTestGroup) :
    duration_based_chunks 0 gs = none := rfl

/-! Claim theorems. -/

/-- C1 (code bug witness): the source of `duration_based_chunks` advances the
bucket pointer whenever the current bucket total has reached the target,
without checking that the pointer is below `N-1`.  On the legal input
`splits = 2` with two groups of duration `0` the target is `0`, the pointer
is advanced past the last bucket, and `selected[2].append` raises an
`IndexError` (modelled by `none`) - contradicting the claim that the pointer
never exceeds `N-1` and that every assignment indexes a valid bucket. -/
theorem chunks_pointer_overflow_bug :
    duration_based_chunks 2
      [InputTestGroup.mk [Item.mk "a::t1"] 0, InputTestGroup.mk [Item.mk "a::t2"] 0] = none := by
  norm_num [duration_based_chunks, dbcStep, totalDur, appAt, appAllBut, List.foldlM]

/-- C2 (counterexample): a non-positive split count is not rejected before
any computation - `least_duration` with `splits = 0` and an empty input list
runs to completion and returns an empty result list instead of failing. -/
theorem split_count_not_rejected_counterexample : least_duration 0 [] = some [] := rfl

/-- C2 (amended): neither strategy validates the split count.  With
`splits = 0`, `least_duration` returns an empty list on empty input, and on
nonempty input fails only in mid-computation when popping the empty bucket
heap; `duration_based_chunks` fails computing `sum(...)/splits`
(`ZeroDivisionError`, modelled by `none`), after summing, not via an upfront
configuration check. -/
theorem split_count_not_validated :
    least_duration 0 [] = some [] ∧
    (∀ (g : InputTestGroup) (gs : List InputTestGroup), least_duration 0 (g :: gs) = none) ∧
    (∀ gs : List InputTestGroup, duration_based_chunks 0 gs = none) :=
  ⟨rfl, least_duration_zero_cons, duration_based_chunks_zero⟩

/-- C3: for every `N ≥ 1` and every input on which the call returns, both
strategies produce exactly `N` output groups; the concatenation of all
`selected` lists is a permutation of the full input item sequence (each item
exactly once, no duplicates, no omissions), and for every output group,
`selected ++ deselected` is a permutation of the full input item sequence -
so an item selected in one group appears in the deselected list of every
other group. -/
theorem partition_exact_coverage (splits : Nat) (gs : List InputTestGroup)
    (out : List OutputTestGroup) (h1 : 1 ≤ splits)
    (halg : least_duration splits gs = some out ∨ duration_based_chunks splits gs = some out) :
    out.length = splits ∧
    ((out.map OutputTestGroup.selected).flatten).Perm (flattenGroups gs) ∧
    ∀ o ∈ out, (o.selected ++ o.deselected).Perm (flattenGroups gs) := by
  rcases halg with h | h
  · have hout : out = ldSpec splits gs := by
      have h2 := least_duration_eq_ldSpec gs h1
      rw [h] at h2
      exact Option.some_inj.mp h2
    subst hout
    exact ⟨ldSpec_length splits gs, ldSpec_selected_flatten_perm gs h1,
      fun o ho => ldSpec_complement h1 ho⟩
  · exact ⟨dbc_length h, (dbc_selected_flatten h) ▸ List.Perm.refl _,
      fun o ho => dbc_complement h ho⟩

/-- C3 witness: `least_duration` with one group and `N = 1`. -/
theorem partition_exact_coverage_witness :
    (1 ≤ 1) ∧
    least_duration 1 [InputTestGroup.mk [Item.mk "a::t1"] 5] =
      some [OutputTestGroup.mk [Item.mk "a::t1"] [] 5] ∧
    (([OutputTestGroup.mk [Item.mk "a::t1"] [] 5] : List OutputTestGroup).length = 1 ∧
      ((([OutputTestGroup.mk [Item.mk "a::t1"] [] 5] : List OutputTestGroup).map
        OutputTestGroup.selected).flatten).Perm
        (flattenGroups [InputTestGroup.mk [Item.mk "a::t1"] 5]) ∧
      ∀ o ∈ ([OutputTestGroup.mk [Item.mk "a::t1"] [] 5] : List OutputTestGroup),
        (o.selected ++ o.deselected).Perm
          (flattenGroups [InputTestGroup.mk [Item.mk "a::t1"] 5])) := by
  have hld : least_duration 1 [InputTestGroup.mk [Item.mk "a::t1"] 5] =
      some [OutputTestGroup.mk [Item.mk "a::t1"] [] 5] := by
    norm_num [least_duration, ldStep, ldProject, heapPop, heapMin, appAt, appAllBut,
      List.foldlM, List.insertionSort, List.orderedInsert, flattenGroups, lexLe, idxLE,
      durGE, List.range_succ, List.enum, List.enumFrom]
  exact ⟨by decide, hld,
    partition_exact_coverage 1 _ _ (by decide) (Or.inl hld)⟩

/-- C4: for every `N ≥ 1` and every input on which `duration_based_chunks`
returns, concatenating the `selected` lists in bucket order reproduces the
exact original item sequence, and each bucket holds one contiguous run of
it. -/
theorem chunks_contiguity (splits : Nat) (gs : List InputTestGroup)
    (out : List OutputTestGroup) (_h1 : 1 ≤ splits)
    (h : duration_based_chunks splits gs = some out) :
    (out.map OutputTestGroup.selected).flatten = flattenGroups gs ∧
    ∀ o ∈ out, o.selected <:+: flattenGroups gs :=
  ⟨dbc_selected_flatten h, fun _ ho => dbc_selected_contiguous h ho⟩

/-- C4 witness: two unit-duration groups split into two buckets. -/
theorem chunks_contiguity_witness :
    (1 ≤ 2) ∧
    duration_based_chunks 2
      [InputTestGroup.mk [Item.mk "a::t1"] 1, InputTestGroup.mk [Item.mk "a::t2"] 1] =
      some [OutputTestGroup.mk [Item.mk "a::t1"] [Item.mk "a::t2"] 1,
            OutputTestGroup.mk [Item.mk "a::t2"] [Item.mk "a::t1"] 1] ∧
    ((([OutputTestGroup.mk [Item.mk "a::t1"] [Item.mk "a::t2"] 1,
        OutputTestGroup.mk [Item.mk "a::t2"] [Item.mk "a::t1"] 1] :
        List OutputTestGroup).map OutputTestGroup.selected).flatten =
      flattenGroups [InputTestGroup.mk [Item.mk "a::t1"] 1,
        InputTestGroup.mk [Item.mk "a::t2"] 1] ∧
      ∀ o ∈ ([OutputTestGroup.mk [Item.mk "a::t1"] [Item.mk "a::t2"] 1,
        OutputTestGroup.mk [Item.mk "a::t2"] [Item.mk "a::t1"] 1] : List OutputTestGroup),
        o.selected <:+: flattenGroups [InputTestGroup.mk [Item.mk "a::t1"] 1,
          InputTestGroup.mk [Item.mk "a::t2"] 1]) := by
  have hdbc : duration_based_chunks 2
      [InputTestGroup.mk [Item.mk "a::t1"] 1, InputTestGroup.mk [Item.mk "a::t2"] 1] =
      some [OutputTestGroup.mk [Item.mk "a::t1"] [Item.mk "a::t2"] 1,
            OutputTestGroup.mk [Item.mk "a::t2"] [Item.mk "a::t1"] 1] := by
    norm_num [duration_based_chunks, dbcStep, totalDur, appAt, appAllBut, List.foldlM,
      List.range_succ, flattenGroups]
  exact ⟨by decide, hdbc, chunks_contiguity 2 _ _ (by decide) hdbc⟩

/-- C5: for every `N ≥ 1`, `least_duration` equals the spec-side function
that sorts explicitly on the compound key (duration descending, original
index ascending) and assigns each group in that order to the bucket with
minimal cumulative duration, lowest bucket index on ties; in particular the
processing order of the source (a stable sort on duration only) coincides
with the compound-key order, which is a strictly sorted permutation of the
enumerated input, and `minBucket` picks a valid bucket of minimal load with
the smallest index among equals.  Both sides are pure functions of their
inputs, so any two invocations on the same input yield the same result. -/
theorem least_duration_greedy_deterministic (splits : Nat) (gs : List InputTestGroup)
    (h1 : 1 ≤ splits) :
    least_duration splits gs = some (ldSpec splits gs) ∧
    List.insertionSort durGE gs.enum = specSortedGroups gs ∧
    ((specSortedGroups gs).Perm gs.enum) ∧
    List.Pairwise strictCompound (specSortedGroups gs) ∧
    ∀ d : List Rat, (minBucket d splits).2 < splits ∧
      (∀ i, i < splits → d.getD (minBucket d splits).2 0 ≤ d.getD i 0) ∧
      (∀ i, i < splits → d.getD i 0 = d.getD (minBucket d splits).2 0 →
        (minBucket d splits).2 ≤ i) := by
  refine ⟨least_duration_eq_ldSpec gs h1, sortedGroups_eq_spec gs, specSortedGroups_perm gs,
    ?_, ?_⟩
  · refine pairwise_strict_of_compound (List.sorted_insertionSort compoundLE _) ?_
    exact List.pairwise_map.mp (nodup_fst_of_perm_enum
      (List.perm_insertionSort compoundLE gs.enum))
  · intro d
    have hfst := minBucket_fst d splits h1
    refine ⟨minBucket_snd_lt d splits h1, ?_, ?_⟩
    · intro i hi
      rcases minBucket_le d splits h1 i hi with hlt | ⟨heq, _⟩
      · rw [← hfst]
        exact le_of_lt hlt
      · rw [← hfst, heq]
    · intro i hi heq
      rcases minBucket_le d splits h1 i hi with hlt | ⟨_, hle⟩
      · rw [hfst, ← heq] at hlt
        exact absurd hlt (lt_irrefl _)
      · exact hle

/-- C5 witness: the spec example with durations `[5,1,1,1]` and `N = 2`. -/
theorem least_duration_greedy_deterministic_witness :
    (1 ≤ 2) ∧
    (least_duration 2
        [InputTestGroup.mk [Item.mk "a::t1"] 5, InputTestGroup.mk [Item.mk "a::t2"] 1,
         InputTestGroup.mk [Item.mk "b::t1"] 1, InputTestGroup.mk [Item.mk "b::t2"] 1] =
      some (ldSpec 2
        [InputTestGroup.mk [Item.mk "a::t1"] 5, InputTestGroup.mk [Item.mk "a::t2"] 1,
         InputTestGroup.mk [Item.mk "b::t1"] 1, InputTestGroup.mk [Item.mk "b::t2"] 1])) := by
  exact ⟨by decide, (least_duration_greedy_deterministic 2 _ (by decide)).1⟩

/-- C6: for both strategies, within every output `selected` list the items
appear in the same relative order as in the original input sequence
(formally: each `selected` is a subsequence of the flattened input); for
`least_duration` this holds because the final projection re-sorts each
bucket by original index before flattening. -/
theorem partition_order_preservation (splits : Nat) (gs : List InputTestGroup)
    (out : List OutputTestGroup) (h1 : 1 ≤ splits)
    (halg : least_duration splits gs = some out ∨ duration_based_chunks splits gs = some out) :
    ∀ o ∈ out, o.selected.Sublist (flattenGroups gs) := by
  rcases halg with h | h
  · have hout : out = ldSpec splits gs := by
      have h2 := least_duration_eq_ldSpec gs h1
      rw [h] at h2
      exact Option.some_inj.mp h2
    subst hout
    exact fun o ho => ldSpec_order h1 ho
  · exact fun o ho => (dbc_selected_contiguous h ho).sublist

/-- C6 witness: `least_duration` with one group and `N = 1`. -/
theorem partition_order_preservation_witness :
    (1 ≤ 1) ∧
    least_duration 1 [InputTestGroup.mk [Item.mk "a::t1"] 5] =
      some [OutputTestGroup.mk [Item.mk "a::t1"] [] 5] ∧
    ∀ o ∈ ([OutputTestGroup.mk [Item.mk "a::t1"] [] 5] : List OutputTestGroup),
      o.selected.Sublist (flattenGroups [InputTestGroup.mk [Item.mk "a::t1"] 5]) := by
  have hld : least_duration 1 [InputTestGroup.mk [Item.mk "a::t1"] 5] =
      some [OutputTestGroup.mk [Item.mk "a::t1"] [] 5] := by
    norm_num [least_duration, ldStep, ldProject, heapPop, heapMin, appAt, appAllBut,
      List.foldlM, List.insertionSort, List.orderedInsert, flattenGroups, lexLe, idxLE,
      durGE, List.range_succ, List.enum, List.enumFrom]
  exact ⟨by decide, hld, partition_order_preservation 1 _ _ (by decide) (Or.inl hld)⟩

/-- C7: the duration estimator first discards record entries whose id is not
in the current item list, computes the average of the remaining durations
(taking `1` when none remain), and returns one `(item, duration)` pair per
item in input order, where the duration is the recorded value when the id is
in the filtered record and the average otherwise - that is, it coincides
with `estimatorSpec`, the direct transcription of the spec.  The `Nodup`
hypothesis states that the duration record is a Python dict (unique keys). -/
theorem estimator_matches_spec (items : List Item) (durations : List (String × Rat))
    (hnd : (durations.map Prod.fst).Nodup) :
    _get_items_with_durations items durations = estimatorSpec items durations :=
  estimator_spec_eq items durations hnd

/-- C7 witness: two items, one recorded duration, one stale record entry. -/
theorem estimator_matches_spec_witness :
    ((([("a::t1", (4 : Rat)), ("zz::9", 100)] : List (String × Rat)).map Prod.fst).Nodup) ∧
    _get_items_with_durations [Item.mk "a::t1", Item.mk "a::t2"]
        [("a::t1", 4), ("zz::9", 100)] =
      estimatorSpec [Item.mk "a::t1", Item.mk "a::t2"] [("a::t1", 4), ("zz::9", 100)] :=
  ⟨by decide, estimator_matches_spec _ _ (by decide)⟩

/-- C8: per-file grouping decomposes each id by splitting on `::` and the
whole call fails (the unpacking error propagates to the caller, modelled by
`none`) exactly when some item id does not split into precisely two parts,
i.e. does not contain exactly one (non-overlapping) occurrence of the
separator; when every id splits into two parts, grouping proceeds. -/
theorem per_file_split_error_iff (gt : String) (hgt : gt ≠ "test") (items : List Item)
    (durations : List (String × Rat)) :
    group_tests gt items durations = none ↔
      ∃ it ∈ items, (it.nodeid.splitOn "::").length ≠ 2 :=
  group_tests_none_iff hgt items durations

/-- C8 witness: a separator-free id makes per-file grouping fail. -/
theorem per_file_split_error_iff_witness :
    (("file" : String) ≠ "test") ∧
    (group_tests "file" [Item.mk "abc"] [] = none ↔
      ∃ it ∈ [Item.mk "abc"], (it.nodeid.splitOn "::").length ≠ 2) :=
  ⟨by decide, per_file_split_error_iff "file" (by decide) [Item.mk "abc"] []⟩

/-- C9: for both strategies, for every `N ≥ 1` and every input on which the
call returns, the sum of the `N` output durations equals the total input
duration exactly (durations are modelled as exact rationals), and each
output duration is the total duration of the groups assigned to that bucket
(whose flattened items are exactly that output `selected` list). -/
theorem duration_conservation (splits : Nat) (gs : List InputTestGroup)
    (out : List OutputTestGroup) (h1 : 1 ≤ splits)
    (halg : least_duration splits gs = some out ∨ duration_based_chunks splits gs = some out) :
    ((out.map OutputTestGroup.duration).sum = totalDur gs) ∧
    ∀ o ∈ out, ∃ assigned : List InputTestGroup,
      o.selected = flattenGroups assigned ∧ o.duration = totalDur assigned := by
  rcases halg with h | h
  · have hout : out = ldSpec splits gs := by
      have h2 := least_duration_eq_ldSpec gs h1
      rw [h] at h2
      exact Option.some_inj.mp h2
    subst hout
    exact ⟨ldSpec_duration_sum gs h1, fun o ho => ldSpec_bucket_duration h1 ho⟩
  · exact ⟨dbc_duration_sum h, fun o ho => dbc_bucket_duration h ho⟩

/-- C9 witness: two unit-duration groups split into two buckets by
`duration_based_chunks`. -/
theorem duration_conservation_witness :
    (1 ≤ 2) ∧
    duration_based_chunks 2
      [InputTestGroup.mk [Item.mk "a::t1"] 1, InputTestGroup.mk [Item.mk "a::t2"] 1] =
      some [OutputTestGroup.mk [Item.mk "a::t1"] [Item.mk "a::t2"] 1,
            OutputTestGroup.mk [Item.mk "a::t2"] [Item.mk "a::t1"] 1] ∧
    ((([OutputTestGroup.mk [Item.mk "a::t1"] [Item.mk "a::t2"] 1,
        OutputTestGroup.mk [Item.mk "a::t2"] [Item.mk "a::t1"] 1] :
        List OutputTestGroup).map OutputTestGroup.duration).sum =
      totalDur [InputTestGroup.mk [Item.mk "a::t1"] 1,
        InputTestGroup.mk [Item.mk "a::t2"] 1] ∧
      ∀ o ∈ ([OutputTestGroup.mk [Item.mk "a::t1"] [Item.mk "a::t2"] 1,
        OutputTestGroup.mk [Item.mk "a::t2"] [Item.mk "a::t1"] 1] : List OutputTestGroup),
        ∃ assigned : List InputTestGroup,
          o.selected = flattenGroups assigned ∧ o.duration = totalDur assigned) := by
  have hdbc : duration_based_chunks 2
      [InputTestGroup.mk [Item.mk "a::t1"] 1, InputTestGroup.mk [Item.mk "a::t2"] 1] =
      some [OutputTestGroup.mk [Item.mk "a::t1"] [Item.mk "a::t2"] 1,
            OutputTestGroup.mk [Item.mk "a::t2"] [Item.mk "a::t1"] 1] := by
    norm_num [duration_based_chunks, dbcStep, totalDur, appAt, appAllBut, List.foldlM,
      List.range_succ, flattenGroups]
  exact ⟨by decide, hdbc, duration_conservation 2 _ _ (by decide) (Or.inr hdbc)⟩

/-- C10: `group_tests` validates no mode name - every mode string other than
exactly `"test"` takes the per-file branch (including unrecognized or
misspelled modes), so an unknown mode never raises a mode error: the call is
exactly `perFileGroups` applied to the estimated items. -/
theorem group_tests_mode_dispatch (gt : String) (hgt : gt ≠ "test") (items : List Item)
    (durations : List (String × Rat)) :
    group_tests gt items durations =
      perFileGroups (_get_items_with_durations items durations) := by
  simp only [group_tests]
  rw [if_neg hgt]

/-- C10 witness: the misspelled mode `"tests"` silently takes the per-file
branch. -/
theorem group_tests_mode_dispatch_witness :
    (("tests" : String) ≠ "test") ∧
    group_tests "tests" [Item.mk "a::t1"] [] =
      perFileGroups (_get_items_with_durations [Item.mk "a::t1"] []) :=
  ⟨by decide, group_tests_mode_dispatch "tests" (by decide) [Item.mk "a::t1"] []⟩

end PytestSplit
